import Mathlib

/-!
# Anonymous e-cash driver: acceptance and cheater determination

Shallow embedding of `task3/driver (1).js`.

* JavaScript strings are lists of characters (`Str`), a `Buffer` is a list of bytes.
* A function that can throw returns `Except Thrown _`.
* The names exported by `coin.js` and `utils.js` (`IDENT_STR`, `BANK_STR`,
  `COIN_RIS_LENGTH`, `utils.hash`) and the library call `blindSignatures.verify` are
  parameters of the functions that use them.
* `utils.randInt(2) === 0` is drawn once per slot; the draws of one run are the stream
  `chooseLeft : Nat → Bool`, indexed by the slot in which the draw happens.
-/

set_option linter.unusedVariables false

namespace Driver

/-- A JavaScript string. -/
abbrev Str := List Char

/-- One byte of a `Buffer`. -/
abbrev Byte := Fin 256

/-- A Node.js `Buffer`. -/
abbrev Buffer := List Byte

/-- The byte with value `n % 256`. -/
def byte (n : Nat) : Byte := ⟨n % 256, Nat.mod_lt n (by decide)⟩

/-! ## Hex transcoding: `buf.toString('hex')` and `Buffer.from(s, 'hex')` -/

/-- Lower-case hex digit of a nibble, as `toString('hex')` writes it. -/
def hexDigit (n : Nat) : Char :=
  if n < 10 then Char.ofNat (48 + n) else Char.ofNat (87 + n)

/-- Value of a hex digit (both cases are read), `none` for any other character. -/
def hexVal (c : Char) : Option Nat :=
  let v := c.toNat
  if 48 ≤ v ∧ v ≤ 57 then some (v - 48)
  else if 97 ≤ v ∧ v ≤ 102 then some (v - 87)
  else if 65 ≤ v ∧ v ≤ 70 then some (v - 55)
  else none

/-- The call `part.toString('hex')`: two lower-case digits per byte. -/
def toHex : Buffer → Str
  | [] => []
  | b :: bs => hexDigit (b.val / 16) :: hexDigit (b.val % 16) :: toHex bs

/-- The UTF-16 code units of one character, as a JavaScript string stores it: one unit
below U+10000, a surrogate pair from there on. -/
def utf16Units (c : Char) : List Nat :=
  if c.toNat < 0x10000 then [c.toNat]
  else [0xD800 + (c.toNat - 0x10000) / 1024, 0xDC00 + (c.toNat - 0x10000) % 1024]

/-- The UTF-16 code units of a string, the positions `Buffer.from(s, 'hex')` walks. -/
def utf16 : Str → List Nat
  | [] => []
  | c :: cs => utf16Units c ++ utf16 cs

/-- Hex decoding of a sequence of code units: the units are read in pairs from the left,
each unit is cut to its low byte before it is looked up as a hex digit, and reading stops
at the first pair that is not two hex digits; a trailing single unit is dropped. -/
def fromHexUnits : List Nat → Buffer
  | a :: b :: rest =>
    match hexVal (Char.ofNat (a % 256)), hexVal (Char.ofNat (b % 256)) with
    | some x, some y => byte (16 * x + y) :: fromHexUnits rest
    | _, _ => []
  | _ => []

/-- The call `Buffer.from(s, 'hex')`: the code units of `s` decoded by `fromHexUnits`. On
a string of hex digits this reads the digit pairs; a character from U+0100 on counts by the
low byte of each of its code units. -/
def fromHex (s : Str) : Buffer := fromHexUnits (utf16 s)

/-! ## UTF-8: `buf.toString()` -/

/-- The replacement character U+FFFD. -/
def replacementChar : Char := Char.ofNat 0xFFFD

/-- Decoder loop of `buf.toString()` (UTF-8 with replacement, one U+FFFD per maximal
ill-formed subsequence). `need` continuation bytes are still expected for the code point
accumulated in `cp`; the next continuation byte must lie in `[lo, hi]`. -/
def utf8DecodeAux (cp need lo hi : Nat) : Buffer → Str
  | [] => if need = 0 then [] else [replacementChar]
  | b :: bs =>
    if need ≠ 0 ∧ lo ≤ b.val ∧ b.val ≤ hi then
      if need = 1 then Char.ofNat (cp * 64 + b.val % 64) :: utf8DecodeAux 0 0 0x80 0xBF bs
      else utf8DecodeAux (cp * 64 + b.val % 64) (need - 1) 0x80 0xBF bs
    else
      -- a pending sequence is cut short: emit U+FFFD and read `b` again as a first byte
      (if need ≠ 0 then [replacementChar] else []) ++
      (if b.val ≤ 0x7F then Char.ofNat b.val :: utf8DecodeAux 0 0 0x80 0xBF bs
       else if 0xC2 ≤ b.val ∧ b.val ≤ 0xDF then utf8DecodeAux (b.val % 32) 1 0x80 0xBF bs
       else if 0xE0 ≤ b.val ∧ b.val ≤ 0xEF then
         utf8DecodeAux (b.val % 16) 2 (if b.val = 0xE0 then 0xA0 else 0x80)
           (if b.val = 0xED then 0x9F else 0xBF) bs
       else if 0xF0 ≤ b.val ∧ b.val ≤ 0xF4 then
         utf8DecodeAux (b.val % 8) 3 (if b.val = 0xF0 then 0x90 else 0x80)
           (if b.val = 0xF4 then 0x8F else 0xBF) bs
       else replacementChar :: utf8DecodeAux 0 0 0x80 0xBF bs)

/-- The call `combined.toString()`: the buffer read as UTF-8. -/
def utf8Decode (buf : Buffer) : Str := utf8DecodeAux 0 0 0x80 0xBF buf

/-- Modelled from the spec: the encoding of one character of the tagged secret into the
share bytes; the encoder (`Buffer.from(string)` inside `utils.makeOTP`) is in `utils.js`,
which is absent. UTF-8, Node's default encoding. -/
def utf8EncodeChar (c : Char) : Buffer :=
  let v := c.toNat
  if v < 0x80 then [byte v]
  else if v < 0x800 then [byte (0xC0 + v / 64), byte (0x80 + v % 64)]
  else if v < 0x10000 then
    [byte (0xE0 + v / 4096), byte (0x80 + v / 64 % 64), byte (0x80 + v % 64)]
  else
    [byte (0xF0 + v / 262144), byte (0x80 + v / 4096 % 64), byte (0x80 + v / 64 % 64),
     byte (0x80 + v % 64)]

/-- Modelled from the spec: the bytes of a string (`encode(spenderIdentity)` of the spec),
see `utf8EncodeChar`. -/
def utf8Encode : Str → Buffer
  | [] => []
  | c :: cs => utf8EncodeChar c ++ utf8Encode cs

/-! ## String helpers -/

/-- The call `s.split(sep)` for a one-character separator: never empty, the pieces in
order. -/
def split (sep : Char) : Str → List Str
  | [] => [[]]
  | c :: cs =>
    if c = sep then [] :: split sep cs
    else
      match split sep cs with
      | [] => [[c]]
      | f :: fs => (c :: f) :: fs

/-! ## Outcomes -/

deriving instance DecidableEq for Except

/-- What the driver throws. -/
inductive Thrown where
  /-- `Error("Invalid identity string: … received, but … expected")` thrown by `parseCoin`
  (the spec's `MalformedCoin`); `cnst` is the marker field that was read. -/
  | malformedCoin (cnst : Option Str)
  /-- `Error("Hash mismatch at position i")` thrown by `acceptCoin` (the spec's
  `HashMismatch`). -/
  | hashMismatch (i : Nat)
  /-- A `TypeError` raised by the runtime: `.split` called on `undefined`, or
  `Buffer.from(undefined, 'hex')`. -/
  | typeError
  deriving DecidableEq, Repr

/-- What `acceptCoin` returns when it does not throw. -/
inductive Accepted where
  /-- The value `new Error("Invalid coin signature.")`, which is returned, not thrown
  (the spec's `InvalidSignature`). -/
  | invalidSignature
  /-- The array of hex strings `ris`. -/
  | ris (r : List Str)
  deriving DecidableEq, Repr

/-- The line `determineCheater` logs before it returns. -/
inductive Verdict where
  /-- Logged "Purchaser is the cheater! Identity: …" with `purchaser`, the value of
  `result.split(':')[1]` (`none` for `undefined`). -/
  | identityRevealed (purchaser : Option Str)
  /-- Logged "Merchant is the cheater! Gave mismatched RIS values.". -/
  | merchantCheated
  /-- Logged "No double spending detected or RIS values are identical.". -/
  | noConflict
  deriving DecidableEq, Repr

/-! ## `parseCoin` -/

/-- Source `parseCoin(s)`. The destructuring of `s.split('-')` binds `cnst`, `leftHashes`
and `rightHashes` to fields 0, 3 and 4 (`undefined` when the field is missing); the marker
is checked first, then `.split(',')` is called on fields 3 and 4. -/
def parseCoin (BANK_STR : Str) (s : Str) : Except Thrown (List Str × List Str) :=
  let fields := split '-' s
  let cnst := fields[0]?
  if cnst ≠ some BANK_STR then .error (.malformedCoin cnst)
  else
    match fields[3]? with
    | none => .error .typeError
    | some leftHashes =>
      let lh := split ',' leftHashes
      match fields[4]? with
      | none => .error .typeError
      | some rightHashes =>
        let rh := split ',' rightHashes
        .ok (lh, rh)

/-! ## `acceptCoin` -/

/-- Modelled from the spec: the `Coin` class of `coin.js`, which is absent, reduced to what
the driver reads: the signature, the key, the id, the canonical string returned by
`toString()`, and the two shares of every slot returned by `getRis`. -/
structure Coin where
  signature : Nat
  n : Str
  e : Str
  guid : Str
  coinString : Str
  leftIdent : Nat → Buffer
  rightIdent : Nat → Buffer

/-- Method `coin.toString()`. -/
def Coin.toString (coin : Coin) : Str := coin.coinString

/-- Method `coin.getRis(isLeft, i)`. -/
def Coin.getRis (coin : Coin) (isLeft : Bool) (i : Nat) : Buffer :=
  if isLeft then coin.leftIdent i else coin.rightIdent i

/-- The `for` loop of `acceptCoin` run for slots `0 .. k-1`: the array `ris` built so far,
or the error thrown on the way. -/
def acceptSlots (hash : Buffer → Str) (coin : Coin) (leftHashes rightHashes : List Str)
    (chooseLeft : Nat → Bool) : Nat → Except Thrown (List Str)
  | 0 => .ok []
  | i + 1 =>
    match acceptSlots hash coin leftHashes rightHashes chooseLeft i with
    | .error err => .error err
    | .ok ris =>
      let part := coin.getRis (chooseLeft i) i
      let hashed := hash part
      let expected := if chooseLeft i then leftHashes[i]? else rightHashes[i]?
      if some hashed ≠ expected then .error (.hashMismatch i)
      else .ok (ris ++ [toHex part])

/-- Source `acceptCoin(coin)`. -/
def acceptCoin (BANK_STR : Str) (COIN_RIS_LENGTH : Nat) (hash : Buffer → Str)
    (verify : Nat → Str → Str → Str → Bool) (coin : Coin) (chooseLeft : Nat → Bool) :
    Except Thrown Accepted :=
  let isValid := verify coin.signature coin.n coin.e coin.toString
  if !isValid then .ok .invalidSignature
  else
    match parseCoin BANK_STR coin.toString with
    | .error err => .error err
    | .ok (leftHashes, rightHashes) =>
      match acceptSlots hash coin leftHashes rightHashes chooseLeft COIN_RIS_LENGTH with
      | .error err => .error err
      | .ok ris => .ok (.ris ris)

/-! ## `determineCheater` -/

/-- The inner loop `combined[j] = s1[j] ^ s2[j]` for `j < s1.length`: the result has the
length of `s1`; where `s2` has run out `s2[j]` is `undefined`, which `^` reads as `0`. -/
def xorBytes : Buffer → Buffer → Buffer
  | [], _ => []
  | a :: as, [] => (a ^^^ 0) :: xorBytes as []
  | a :: as, b :: bs => (a ^^^ b) :: xorBytes as bs

/-- Source `determineCheater(guid, ris1, ris2)`, the loop over `i < ris1.length` written
as a walk down both arrays. `guid` is only printed. -/
def determineCheater (IDENT_STR : Str) (guid : Str) : List Str → List Str →
    Except Thrown Verdict
  | [], _ => .ok .noConflict
  | _ :: _, [] => .error .typeError
  | r1 :: ris1, r2 :: ris2 =>
    let s1 := fromHex r1
    let s2 := fromHex r2
    if s1 ≠ s2 then
      let combined := xorBytes s1 s2
      let result := utf8Decode combined
      if IDENT_STR.isPrefixOf result then
        let purchaser := (split ':' result)[1]?
        .ok (.identityRevealed purchaser)
      else .ok .merchantCheated
    else determineCheater IDENT_STR guid ris1 ris2

/-! ## Notions used to state the properties -/

/-- Slot `i` is the first slot at which `determineCheater` sees a divergence: the entries
`r1 = ris1[i]` and `r2 = ris2[i]` decode to different shares (the test `!s1.equals(s2)`),
and every earlier slot decodes to equal shares. -/
def FirstDivergentSlot (ris1 ris2 : List Str) (i : Nat) (r1 r2 : Str) : Prop :=
  ris1[i]? = some r1 ∧ ris2[i]? = some r2 ∧ fromHex r1 ≠ fromHex r2 ∧
    ∀ j, j < i → (ris1[j]?).map fromHex = (ris2[j]?).map fromHex

instance (ris1 ris2 : List Str) (i : Nat) (r1 r2 : Str) :
    Decidable (FirstDivergentSlot ris1 ris2 i r1 r2) := by
  unfold FirstDivergentSlot
  infer_instance

/-- The share `acceptCoin` discloses in slot `i` under the draws `chooseLeft`. -/
def selectedShare (coin : Coin) (chooseLeft : Nat → Bool) (i : Nat) : Buffer :=
  coin.getRis (chooseLeft i) i

/-- The committed hash slot `i` is compared with: `leftHashes[i]` or `rightHashes[i]`
(`none` for `undefined`). -/
def committedHash (leftHashes rightHashes : List Str) (chooseLeft : Nat → Bool) (i : Nat) :
    Option Str :=
  if chooseLeft i then leftHashes[i]? else rightHashes[i]?

/-! ## Sample data -/

/-- A stand-in for `utils.hash` in the samples: the hex digits of the bytes. -/
def sampleHash (b : Buffer) : Str := toHex b

/-- A verifier that accepts every signature. -/
def acceptAll (sig : Nat) (n e msg : Str) : Bool := true

/-- A verifier that rejects every signature. -/
def rejectAll (sig : Nat) (n e msg : Str) : Bool := false

/-- A two-slot coin for the bank marker `BANK`: slot `i` has the shares `[i]` and
`[255 - i]`, committed under `sampleHash`. -/
def sampleCoin : Coin where
  signature := 7
  n := "33".toList
  e := "3".toList
  guid := "g1".toList
  coinString := "BANK-20-g1-00,01-ff,fe".toList
  leftIdent := fun i => [byte i]
  rightIdent := fun i => [byte (255 - i)]

/-- The coin `sampleCoin` with its second left commitment corrupted. -/
def corruptCoin : Coin :=
  { sampleCoin with coinString := "BANK-20-g1-00,0b-ff,fe".toList }

/-- Draws that choose left in every slot. -/
def allLeft (i : Nat) : Bool := true

/-- Draws that choose right in slot 0 and left afterwards. -/
def rightThenLeft (i : Nat) : Bool := decide (i ≠ 0)

/-- A two-slot coin minted for the identity `alice` under the marker `IDENT`: in each slot
the left share is a random key and the right share is the key XOR the bytes of
`IDENT:alice`; the commitments are taken under `sampleHash`. -/
def aliceCoin : Coin where
  signature := 7
  n := "33".toList
  e := "3".toList
  guid := "g2".toList
  coinString :=
    ("BANK-20-g2-5a13c4079e216bf0384499,5a13c4079e216bf0384499" ++
      "-13578149ca1b0a9c5127fc,13578149ca1b0a9c5127fc").toList
  leftIdent := fun _ => fromHex "5a13c4079e216bf0384499".toList
  rightIdent := fun _ => fromHex "13578149ca1b0a9c5127fc".toList

/-- The draws of one run given for the `k` slots only (`false` beyond them, where no draw
is made). -/
def drawsOf {k : Nat} (bits : Fin k → Bool) (i : Nat) : Bool :=
  if h : i < k then bits ⟨i, h⟩ else false

/-- Entry `i` of the sequence `acceptCoin` returned (`none` when there is none). -/
def slotOf (out : Except Thrown Accepted) (i : Nat) : Option Str :=
  match out with
  | .ok (.ris r) => r[i]?
  | _ => none

/-! ## Notions used for the wire format and the verdict of one slot -/

/-- The call `hashes.join(',')` for a one-character separator. -/
def joinWith (sep : Char) : List Str → Str
  | [] => []
  | [h] => h
  | h :: t => h ++ sep :: joinWith sep t

/-- Modelled from the spec: the canonical string of a coin, which the `Coin` constructor
of `coin.js` (absent) builds: marker, amount, id and the two hash lists joined by `,`,
separated by `-`. -/
def canonicalString (BANK_STR amount guid : Str) (leftHashes rightHashes : List Str) : Str :=
  BANK_STR ++ '-' :: (amount ++ '-' :: (guid ++ '-' ::
    (joinWith ',' leftHashes ++ '-' :: joinWith ',' rightHashes)))

/-- The branch `determineCheater` takes inside a divergent slot, as a function of the two
decoded shares `s1` and `s2` of that slot. -/
def slotVerdict (IDENT_STR : Str) (s1 s2 : Buffer) : Verdict :=
  let combined := xorBytes s1 s2
  let result := utf8Decode combined
  if IDENT_STR.isPrefixOf result then .identityRevealed ((split ':' result)[1]?)
  else .merchantCheated

/-! ## The lines `determineCheater` prints -/

/-- The first `console.log` of `determineCheater`, the only place where `guid` is used. -/
def checkingLine (guid : Str) : Str :=
  "Checking double-spend for coin ".toList ++ guid ++ "...".toList

/-- The `console.log` of each verdict; an `undefined` purchaser prints as `undefined`. -/
def verdictLine : Verdict → Str
  | .identityRevealed purchaser =>
    "Purchaser is the cheater! Identity: ".toList ++ purchaser.getD "undefined".toList
  | .merchantCheated => "Merchant is the cheater! Gave mismatched RIS values.".toList
  | .noConflict => "No double spending detected or RIS values are identical.".toList

/-- Everything `determineCheater(guid, ris1, ris2)` prints, in order: the line with the
coin id, then the line of the verdict (none when the loop throws). -/
def consoleLines (IDENT_STR guid : Str) (ris1 ris2 : List Str) : List Str :=
  checkingLine guid ::
    match determineCheater IDENT_STR guid ris1 ris2 with
    | .ok verdict => [verdictLine verdict]
    | .error _ => []

/-! ## Transcoding lemmas -/

theorem byte_val (n : Nat) : (byte n).val = n % 256 := rfl

theorem char_valid (c : Char) : c.toNat < 0xD800 ∨ (0xDFFF < c.toNat ∧ c.toNat < 0x110000) := by
  have h := c.valid
  simpa [UInt32.isValidChar, Nat.isValidChar, Char.toNat] using h

theorem utf8DecodeAux_first (lo hi : Nat) (b : Byte) (bs : Buffer) :
    utf8DecodeAux 0 0 lo hi (b :: bs) =
      (if b.val ≤ 0x7F then Char.ofNat b.val :: utf8DecodeAux 0 0 0x80 0xBF bs
       else if 0xC2 ≤ b.val ∧ b.val ≤ 0xDF then utf8DecodeAux (b.val % 32) 1 0x80 0xBF bs
       else if 0xE0 ≤ b.val ∧ b.val ≤ 0xEF then
         utf8DecodeAux (b.val % 16) 2 (if b.val = 0xE0 then 0xA0 else 0x80)
           (if b.val = 0xED then 0x9F else 0xBF) bs
       else if 0xF0 ≤ b.val ∧ b.val ≤ 0xF4 then
         utf8DecodeAux (b.val % 8) 3 (if b.val = 0xF0 then 0x90 else 0x80)
           (if b.val = 0xF4 then 0x8F else 0xBF) bs
       else replacementChar :: utf8DecodeAux 0 0 0x80 0xBF bs) := by
  simp [utf8DecodeAux]

theorem utf8DecodeAux_last (cp lo hi : Nat) (b : Byte) (bs : Buffer)
    (h : lo ≤ b.val ∧ b.val ≤ hi) :
    utf8DecodeAux cp 1 lo hi (b :: bs) =
      Char.ofNat (cp * 64 + b.val % 64) :: utf8DecodeAux 0 0 0x80 0xBF bs := by
  simp [utf8DecodeAux, h]

theorem utf8DecodeAux_cont (cp need lo hi : Nat) (b : Byte) (bs : Buffer)
    (hn : 2 ≤ need) (h : lo ≤ b.val ∧ b.val ≤ hi) :
    utf8DecodeAux cp need lo hi (b :: bs) =
      utf8DecodeAux (cp * 64 + b.val % 64) (need - 1) 0x80 0xBF bs := by
  have h0 : need ≠ 0 := by omega
  have h1 : need ≠ 1 := by omega
  simp [utf8DecodeAux, h, h0, h1]

theorem utf8DecodeAux_encodeChar (c : Char) (rest : Buffer) :
    utf8DecodeAux 0 0 0x80 0xBF (utf8EncodeChar c ++ rest) =
      c :: utf8DecodeAux 0 0 0x80 0xBF rest := by
  have hv := char_valid c
  have hc : ∀ n, n = c.toNat → Char.ofNat n = c := fun n h => by rw [h, Char.ofNat_toNat]
  unfold utf8EncodeChar
  simp only []
  split_ifs with h1 h2 h3
  · rw [List.singleton_append, utf8DecodeAux_first, byte_val, if_pos (by omega)]
    rw [hc _ (by omega)]
  · rw [List.cons_append, List.singleton_append, utf8DecodeAux_first, byte_val,
      if_neg (by omega), if_pos (by omega), utf8DecodeAux_last _ _ _ _ _ (by rw [byte_val]; omega),
      byte_val]
    rw [hc _ (by omega)]
  · rw [List.cons_append, List.cons_append, List.singleton_append, utf8DecodeAux_first,
      byte_val, if_neg (by omega), if_neg (by omega), if_pos (by omega),
      utf8DecodeAux_cont _ _ _ _ _ _ (by omega)
        (by simp only [byte_val]; split_ifs <;> omega),
      utf8DecodeAux_last _ _ _ _ _ (by rw [byte_val]; omega)]
    simp only [byte_val]
    rw [hc _ (by omega)]
  · rw [List.cons_append, List.cons_append, List.cons_append, List.singleton_append,
      utf8DecodeAux_first,
      byte_val, if_neg (by omega), if_neg (by omega), if_neg (by omega), if_pos (by omega),
      utf8DecodeAux_cont _ _ _ _ _ _ (by omega)
        (by simp only [byte_val]; split_ifs <;> omega),
      utf8DecodeAux_cont _ _ _ _ _ _ (by omega) (by rw [byte_val]; omega),
      utf8DecodeAux_last _ _ _ _ _ (by rw [byte_val]; omega)]
    simp only [byte_val]
    rw [hc _ (by omega)]

theorem utf8Decode_encode_append (s : Str) (rest : Buffer) :
    utf8Decode (utf8Encode s ++ rest) = s ++ utf8Decode rest := by
  induction s with
  | nil => rfl
  | cons c cs ih =>
    unfold utf8Decode at ih ⊢
    rw [utf8Encode, List.append_assoc, utf8DecodeAux_encodeChar, ih, List.cons_append]

theorem utf8Decode_encode (s : Str) : utf8Decode (utf8Encode s) = s := by
  have h := utf8Decode_encode_append s []
  rw [List.append_nil] at h
  rw [h]
  simp [utf8Decode, utf8DecodeAux]

theorem hexVal_hexDigit (n : Nat) (h : n < 16) : hexVal (hexDigit n) = some n := by
  interval_cases n <;> decide

theorem utf16Units_hexDigit (n : Nat) (h : n < 16) :
    utf16Units (hexDigit n) = [(hexDigit n).toNat] := by
  interval_cases n <;> decide

theorem hexVal_lowByte_hexDigit (n : Nat) (h : n < 16) :
    hexVal (Char.ofNat ((hexDigit n).toNat % 256)) = some n := by
  interval_cases n <;> decide

theorem fromHex_toHex (bs : Buffer) : fromHex (toHex bs) = bs := by
  induction bs with
  | nil => rfl
  | cons b bs ih =>
    have h1 : b.val / 16 < 16 := by have := b.isLt; omega
    have h2 : b.val % 16 < 16 := by omega
    unfold fromHex at ih ⊢
    simp only [toHex, utf16, utf16Units_hexDigit _ h1, utf16Units_hexDigit _ h2,
      List.singleton_append, fromHexUnits, hexVal_lowByte_hexDigit _ h1,
      hexVal_lowByte_hexDigit _ h2, ih]
    congr 1
    apply Fin.ext
    simp only [byte]
    have := b.isLt
    omega

theorem toHex_injective {a b : Buffer} (h : toHex a = toHex b) : a = b := by
  rw [← fromHex_toHex a, ← fromHex_toHex b, h]

/-! ## Lemmas on `xorBytes` and `split` -/

theorem byte_xor_val (a b : Byte) : (a ^^^ b).val = a.val ^^^ b.val := by
  have h : (a ^^^ b).val = (a.val ^^^ b.val) % 256 := rfl
  rw [h]
  exact Nat.mod_eq_of_lt (Nat.xor_lt_two_pow (n := 8) a.isLt b.isLt)

theorem byte_xor_comm (a b : Byte) : a ^^^ b = b ^^^ a := by
  apply Fin.ext
  rw [byte_xor_val, byte_xor_val, Nat.xor_comm]

theorem byte_xor_self (a : Byte) : a ^^^ a = 0 := by
  apply Fin.ext
  rw [byte_xor_val, Nat.xor_self]
  rfl

theorem byte_xor_eq_zero {a b : Byte} (h : a ^^^ b = 0) : a = b := by
  apply Fin.ext
  have h2 : (a ^^^ b).val = 0 := by rw [h]; rfl
  rw [byte_xor_val] at h2
  exact Nat.xor_eq_zero.mp h2

theorem xorBytes_comm : ∀ (s1 s2 : Buffer), s1.length = s2.length →
    xorBytes s1 s2 = xorBytes s2 s1
  | [], [], _ => rfl
  | [], _ :: _, h => by simp at h
  | _ :: _, [], h => by simp at h
  | a :: as, b :: bs, h => by
    simp only [xorBytes]
    rw [byte_xor_comm a b, xorBytes_comm as bs (by simpa using h)]

theorem xorBytes_length : ∀ (s1 s2 : Buffer), (xorBytes s1 s2).length = s1.length
  | [], _ => rfl
  | a :: as, [] => by simp [xorBytes, xorBytes_length as []]
  | a :: as, b :: bs => by simp [xorBytes, xorBytes_length as bs]

theorem xorBytes_self : ∀ (s : Buffer), xorBytes s s = List.replicate s.length 0
  | [] => rfl
  | a :: as => by
    simp only [xorBytes, byte_xor_self, xorBytes_self as, List.length_cons,
      List.replicate_succ]

theorem split_ne_nil (sep : Char) : ∀ s : Str, split sep s ≠ []
  | [] => by simp [split]
  | c :: cs => by
    have ih := split_ne_nil sep cs
    unfold split
    split_ifs
    · simp
    · split <;> simp

theorem split_no_sep (sep : Char) : ∀ s : Str, sep ∉ s → split sep s = [s]
  | [], _ => rfl
  | c :: cs, h => by
    have hc : c ≠ sep := fun e => h (by simp [e])
    have hcs : sep ∉ cs := fun e => h (by simp [e])
    simp [split, hc, split_no_sep sep cs hcs]

theorem split_append_sep (sep : Char) : ∀ (a b : Str), sep ∉ a →
    split sep (a ++ sep :: b) = a :: split sep b
  | [], b, _ => by simp [split]
  | c :: cs, b, h => by
    have hc : c ≠ sep := fun e => h (by simp [e])
    have hcs : sep ∉ cs := fun e => h (by simp [e])
    simp [split, hc, split_append_sep sep cs b hcs]

/-! ## Lemmas on `acceptSlots` -/

theorem acceptSlots_ok_of_match (hash : Buffer → Str) (coin : Coin) (lh rh : List Str)
    (chooseLeft : Nat → Bool) : ∀ k : Nat,
    (∀ i, i < k → some (hash (coin.getRis (chooseLeft i) i)) =
      (if chooseLeft i then lh[i]? else rh[i]?)) →
    acceptSlots hash coin lh rh chooseLeft k =
      .ok ((List.range k).map fun i => toHex (coin.getRis (chooseLeft i) i))
  | 0, _ => rfl
  | k + 1, h => by
    have ih := acceptSlots_ok_of_match hash coin lh rh chooseLeft k
      (fun i hi => h i (Nat.lt_succ_of_lt hi))
    have hk := h k (Nat.lt_succ_self k)
    simp only [acceptSlots, ih, hk, ne_eq, not_true_eq_false, if_false, List.range_succ,
      List.map_append, List.map_cons, List.map_nil]

theorem acceptSlots_ok_inv (hash : Buffer → Str) (coin : Coin) (lh rh : List Str)
    (chooseLeft : Nat → Bool) : ∀ (k : Nat) (r : List Str),
    acceptSlots hash coin lh rh chooseLeft k = .ok r →
    ∀ i, i < k → some (hash (coin.getRis (chooseLeft i) i)) =
      (if chooseLeft i then lh[i]? else rh[i]?)
  | 0, _, _ => fun i hi => absurd hi (Nat.not_lt_zero i)
  | k + 1, r, h => by
    intro i hi
    simp only [acceptSlots] at h
    cases hk : acceptSlots hash coin lh rh chooseLeft k with
    | error e => rw [hk] at h; simp at h
    | ok r0 =>
      rw [hk] at h
      simp only at h
      by_cases hm : some (hash (coin.getRis (chooseLeft k) k)) =
          (if chooseLeft k then lh[k]? else rh[k]?)
      · rcases Nat.lt_succ_iff_lt_or_eq.mp hi with hlt | heq
        · exact acceptSlots_ok_inv hash coin lh rh chooseLeft k r0 hk i hlt
        · rw [heq]; exact hm
      · rw [if_pos hm] at h
        simp at h

theorem acceptSlots_error_inv (hash : Buffer → Str) (coin : Coin) (lh rh : List Str)
    (chooseLeft : Nat → Bool) : ∀ (k : Nat) (e : Thrown),
    acceptSlots hash coin lh rh chooseLeft k = .error e →
    ∃ j, j < k ∧ e = .hashMismatch j ∧
      some (hash (coin.getRis (chooseLeft j) j)) ≠
        (if chooseLeft j then lh[j]? else rh[j]?) ∧
      ∀ i, i < j → some (hash (coin.getRis (chooseLeft i) i)) =
        (if chooseLeft i then lh[i]? else rh[i]?)
  | 0, e, h => by simp [acceptSlots] at h
  | k + 1, e, h => by
    simp only [acceptSlots] at h
    cases hk : acceptSlots hash coin lh rh chooseLeft k with
    | error e0 =>
      rw [hk] at h
      simp only [Except.error.injEq] at h
      obtain ⟨j, hj, he, hm, hb⟩ := acceptSlots_error_inv hash coin lh rh chooseLeft k e0 hk
      exact ⟨j, Nat.lt_succ_of_lt hj, h ▸ he, hm, hb⟩
    | ok r0 =>
      rw [hk] at h
      simp only at h
      by_cases hm : some (hash (coin.getRis (chooseLeft k) k)) =
          (if chooseLeft k then lh[k]? else rh[k]?)
      · rw [if_neg (not_not.mpr hm)] at h
        simp at h
      · rw [if_pos hm] at h
        simp only [Except.error.injEq] at h
        exact ⟨k, Nat.lt_succ_self k, h.symm, hm,
          acceptSlots_ok_inv hash coin lh rh chooseLeft k r0 hk⟩

/-! ## Lemmas on `acceptCoin` -/

theorem acceptCoin_of_parse (BANK_STR : Str) (K : Nat) (hash : Buffer → Str)
    (verify : Nat → Str → Str → Str → Bool) (coin : Coin) (chooseLeft : Nat → Bool)
    (lh rh : List Str)
    (hsig : verify coin.signature coin.n coin.e coin.toString = true)
    (hparse : parseCoin BANK_STR coin.toString = .ok (lh, rh)) :
    acceptCoin BANK_STR K hash verify coin chooseLeft =
      match acceptSlots hash coin lh rh chooseLeft K with
      | .error err => .error err
      | .ok ris => .ok (.ris ris) := by
  simp only [acceptCoin, hsig, hparse, Bool.not_true, Bool.false_eq_true, if_false]

theorem acceptCoin_honest (BANK_STR : Str) (K : Nat) (hash : Buffer → Str)
    (verify : Nat → Str → Str → Str → Bool) (coin : Coin) (chooseLeft : Nat → Bool)
    (lh rh : List Str)
    (hsig : verify coin.signature coin.n coin.e coin.toString = true)
    (hparse : parseCoin BANK_STR coin.toString = .ok (lh, rh))
    (hl : ∀ i, i < K → lh[i]? = some (hash (coin.leftIdent i)))
    (hr : ∀ i, i < K → rh[i]? = some (hash (coin.rightIdent i))) :
    acceptCoin BANK_STR K hash verify coin chooseLeft =
      .ok (.ris ((List.range K).map fun i => toHex (selectedShare coin chooseLeft i))) := by
  rw [acceptCoin_of_parse BANK_STR K hash verify coin chooseLeft lh rh hsig hparse,
    acceptSlots_ok_of_match]
  · rfl
  · intro i hi
    cases hc : chooseLeft i
    · simp [Coin.getRis, hr i hi]
    · simp [Coin.getRis, hl i hi]

/-! ## Acceptance: C5 – C8 -/

/-- C5: for a coin with a valid signature whose canonical string parses (expected marker)
into commitments with `leftHashes[i] = hash(left[i])` and `rightHashes[i] = hash(right[i])`
for every slot `i < COIN_RIS_LENGTH`, and for every sequence of draws, `acceptCoin` throws
no hash mismatch and returns exactly `COIN_RIS_LENGTH` entries, the `i`-th being the hex
encoding of `left[i]` when draw `i` chooses left and of `right[i]` otherwise. -/
theorem C5_acceptCoin_returns_selected_shares (BANK_STR : Str) (COIN_RIS_LENGTH : Nat)
    (hash : Buffer → Str) (verify : Nat → Str → Str → Str → Bool) (coin : Coin)
    (chooseLeft : Nat → Bool) (leftHashes rightHashes : List Str)
    (hsig : verify coin.signature coin.n coin.e coin.toString = true)
    (hparse : parseCoin BANK_STR coin.toString = .ok (leftHashes, rightHashes))
    (hl : ∀ i, i < COIN_RIS_LENGTH → leftHashes[i]? = some (hash (coin.leftIdent i)))
    (hr : ∀ i, i < COIN_RIS_LENGTH → rightHashes[i]? = some (hash (coin.rightIdent i))) :
    (∀ j, acceptCoin BANK_STR COIN_RIS_LENGTH hash verify coin chooseLeft ≠
        .error (.hashMismatch j)) ∧
    ∃ ris, acceptCoin BANK_STR COIN_RIS_LENGTH hash verify coin chooseLeft = .ok (.ris ris) ∧
      ris.length = COIN_RIS_LENGTH ∧
      ∀ i, i < COIN_RIS_LENGTH →
        ris[i]? = some (toHex (if chooseLeft i then coin.leftIdent i else coin.rightIdent i)) := by
  have h := acceptCoin_honest BANK_STR COIN_RIS_LENGTH hash verify coin chooseLeft
    leftHashes rightHashes hsig hparse hl hr
  refine ⟨fun j hj => by rw [h] at hj; simp at hj, _, h, by simp, ?_⟩
  intro i hi
  rw [List.getElem?_map, List.getElem?_range hi]
  simp only [Option.map_some', selectedShare, Coin.getRis]

/-- Witness of C5 on `sampleCoin` with two slots. -/
theorem C5_witness :
    (∀ j, acceptCoin "BANK".toList 2 sampleHash acceptAll sampleCoin rightThenLeft ≠
        .error (.hashMismatch j)) ∧
    ∃ ris, acceptCoin "BANK".toList 2 sampleHash acceptAll sampleCoin rightThenLeft =
        .ok (.ris ris) ∧ ris.length = 2 ∧
      ∀ i, i < 2 → ris[i]? = some (toHex (if rightThenLeft i then sampleCoin.leftIdent i
        else sampleCoin.rightIdent i)) :=
  C5_acceptCoin_returns_selected_shares "BANK".toList 2 sampleHash acceptAll sampleCoin
    rightThenLeft ["00".toList, "01".toList] ["ff".toList, "fe".toList]
    (by decide) (by decide) (by decide) (by decide)

/-- C6: for a validly signed coin whose canonical string parses, and fixed draws,
`acceptCoin` throws a hash mismatch if and only if some slot `i < COIN_RIS_LENGTH` has the
hash of the selected share different from the committed hash it is compared with; the
slot reported is the smallest such `i`. -/
theorem C6_hashMismatch_iff_first_mismatch (BANK_STR : Str) (COIN_RIS_LENGTH : Nat)
    (hash : Buffer → Str) (verify : Nat → Str → Str → Str → Bool) (coin : Coin)
    (chooseLeft : Nat → Bool) (leftHashes rightHashes : List Str)
    (hsig : verify coin.signature coin.n coin.e coin.toString = true)
    (hparse : parseCoin BANK_STR coin.toString = .ok (leftHashes, rightHashes)) :
    ((∃ j, acceptCoin BANK_STR COIN_RIS_LENGTH hash verify coin chooseLeft =
          .error (.hashMismatch j)) ↔
      ∃ i, i < COIN_RIS_LENGTH ∧ some (hash (selectedShare coin chooseLeft i)) ≠
        committedHash leftHashes rightHashes chooseLeft i) ∧
    ∀ j, acceptCoin BANK_STR COIN_RIS_LENGTH hash verify coin chooseLeft =
          .error (.hashMismatch j) →
      j < COIN_RIS_LENGTH ∧
      some (hash (selectedShare coin chooseLeft j)) ≠
        committedHash leftHashes rightHashes chooseLeft j ∧
      ∀ i, i < j → some (hash (selectedShare coin chooseLeft i)) =
        committedHash leftHashes rightHashes chooseLeft i := by
  rw [acceptCoin_of_parse BANK_STR COIN_RIS_LENGTH hash verify coin chooseLeft leftHashes
    rightHashes hsig hparse]
  have key : ∀ j, (match acceptSlots hash coin leftHashes rightHashes chooseLeft
        COIN_RIS_LENGTH with
      | .error err => (.error err : Except Thrown Accepted)
      | .ok ris => .ok (.ris ris)) = .error (.hashMismatch j) →
      j < COIN_RIS_LENGTH ∧
      some (hash (selectedShare coin chooseLeft j)) ≠
        committedHash leftHashes rightHashes chooseLeft j ∧
      ∀ i, i < j → some (hash (selectedShare coin chooseLeft i)) =
        committedHash leftHashes rightHashes chooseLeft i := by
    intro j hj
    cases hs : acceptSlots hash coin leftHashes rightHashes chooseLeft COIN_RIS_LENGTH with
    | ok r => rw [hs] at hj; simp at hj
    | error e =>
      rw [hs] at hj
      simp only [Except.error.injEq] at hj
      obtain ⟨j0, hlt, he, hm, hb⟩ :=
        acceptSlots_error_inv hash coin leftHashes rightHashes chooseLeft _ e hs
      rw [hj] at he
      simp only [Thrown.hashMismatch.injEq] at he
      subst he
      exact ⟨hlt, hm, hb⟩
  refine ⟨⟨fun ⟨j, hj⟩ => ⟨j, (key j hj).1, (key j hj).2.1⟩, ?_⟩, key⟩
  rintro ⟨i, hi, hm⟩
  cases hs : acceptSlots hash coin leftHashes rightHashes chooseLeft COIN_RIS_LENGTH with
  | ok r =>
    exact absurd (acceptSlots_ok_inv hash coin leftHashes rightHashes chooseLeft _ r hs i hi) hm
  | error e =>
    obtain ⟨j0, _, he, _, _⟩ :=
      acceptSlots_error_inv hash coin leftHashes rightHashes chooseLeft _ e hs
    exact ⟨j0, by rw [he]⟩

/-- Witness of C6 on `corruptCoin`, whose commitment for the left share of slot 1 is
wrong. -/
theorem C6_witness :
    ((∃ j, acceptCoin "BANK".toList 2 sampleHash acceptAll corruptCoin allLeft =
          .error (.hashMismatch j)) ↔
      ∃ i, i < 2 ∧ some (sampleHash (selectedShare corruptCoin allLeft i)) ≠
        committedHash ["00".toList, "0b".toList] ["ff".toList, "fe".toList] allLeft i) ∧
    ∀ j, acceptCoin "BANK".toList 2 sampleHash acceptAll corruptCoin allLeft =
          .error (.hashMismatch j) →
      j < 2 ∧
      some (sampleHash (selectedShare corruptCoin allLeft j)) ≠
        committedHash ["00".toList, "0b".toList] ["ff".toList, "fe".toList] allLeft j ∧
      ∀ i, i < j → some (sampleHash (selectedShare corruptCoin allLeft i)) =
        committedHash ["00".toList, "0b".toList] ["ff".toList, "fe".toList] allLeft i :=
  C6_hashMismatch_iff_first_mismatch "BANK".toList 2 sampleHash acceptAll corruptCoin allLeft
    ["00".toList, "0b".toList] ["ff".toList, "fe".toList] (by decide) (by decide)

/-- C7: when signature verification returns false, `acceptCoin` returns the invalid
signature error value and does nothing else, whatever the marker, the commitments, the
shares and the draws are: nothing is thrown and no response sequence is produced. -/
theorem C7_invalid_signature_stops (BANK_STR : Str) (COIN_RIS_LENGTH : Nat)
    (hash : Buffer → Str) (verify : Nat → Str → Str → Str → Bool) (coin : Coin)
    (chooseLeft : Nat → Bool)
    (hsig : verify coin.signature coin.n coin.e coin.toString = false) :
    acceptCoin BANK_STR COIN_RIS_LENGTH hash verify coin chooseLeft = .ok .invalidSignature := by
  simp only [acceptCoin, hsig, Bool.not_false, if_true]

/-- Witness of C7: a rejected signature on a coin whose marker is not the expected one. -/
theorem C7_witness :
    acceptCoin "OTHER".toList 2 sampleHash rejectAll corruptCoin allLeft =
      .ok .invalidSignature :=
  C7_invalid_signature_stops "OTHER".toList 2 sampleHash rejectAll corruptCoin allLeft
    (by decide)

/-- C8: for every string whose first field (up to the first `-`) is not `BANK_STR`,
`parseCoin` throws the marker error and returns no hash lists, whatever the other fields
are and however many there are. -/
theorem C8_parseCoin_rejects_marker (BANK_STR : Str) (s : Str)
    (hmarker : (split '-' s)[0]? ≠ some BANK_STR) :
    parseCoin BANK_STR s = .error (.malformedCoin ((split '-' s)[0]?)) := by
  simp only [parseCoin, hmarker, ne_eq, not_false_eq_true, if_true]

/-- Witness of C8: a one-field string with the wrong marker. -/
theorem C8_witness :
    parseCoin "BANK".toList "COIN".toList = .error (.malformedCoin (some "COIN".toList)) :=
  C8_parseCoin_rejects_marker "BANK".toList "COIN".toList (by decide)

/-! ## Lemmas on `determineCheater` -/

/-- The verdict computed from the two shares of a divergent slot. -/
theorem determineCheater_cons_ne (IDENT_STR guid : Str) (r1 r2 : Str) (t1 t2 : List Str)
    (h : fromHex r1 ≠ fromHex r2) :
    determineCheater IDENT_STR guid (r1 :: t1) (r2 :: t2) =
      if IDENT_STR.isPrefixOf (utf8Decode (xorBytes (fromHex r1) (fromHex r2))) then
        .ok (.identityRevealed
          ((split ':' (utf8Decode (xorBytes (fromHex r1) (fromHex r2))))[1]?))
      else .ok .merchantCheated := by
  simp only [determineCheater, h, ne_eq, not_false_eq_true, if_true]

theorem determineCheater_cons_eq (IDENT_STR guid : Str) (r1 r2 : Str) (t1 t2 : List Str)
    (h : fromHex r1 = fromHex r2) :
    determineCheater IDENT_STR guid (r1 :: t1) (r2 :: t2) =
      determineCheater IDENT_STR guid t1 t2 := by
  simp only [determineCheater, h, ne_eq, not_true_eq_false, if_false]

/-- At the first divergent slot the loop returns, with the verdict of that slot. -/
theorem determineCheater_first_divergent (IDENT_STR guid : Str) :
    ∀ (i : Nat) (ris1 ris2 : List Str) (r1 r2 : Str),
    FirstDivergentSlot ris1 ris2 i r1 r2 →
    determineCheater IDENT_STR guid ris1 ris2 =
      if IDENT_STR.isPrefixOf (utf8Decode (xorBytes (fromHex r1) (fromHex r2))) then
        .ok (.identityRevealed
          ((split ':' (utf8Decode (xorBytes (fromHex r1) (fromHex r2))))[1]?))
      else .ok .merchantCheated
  | _, [], _, _, _, h => by simp [FirstDivergentSlot] at h
  | _, _ :: _, [], _, _, h => by simp [FirstDivergentSlot] at h
  | 0, a :: t1, b :: t2, r1, r2, h => by
    obtain ⟨h1, h2, hne, _⟩ := h
    simp only [List.getElem?_cons_zero, Option.some.injEq] at h1 h2
    subst h1 h2
    exact determineCheater_cons_ne IDENT_STR guid a b t1 t2 hne
  | i + 1, a :: t1, b :: t2, r1, r2, h => by
    obtain ⟨h1, h2, hne, hpre⟩ := h
    have h0 := hpre 0 (Nat.succ_pos i)
    simp only [List.getElem?_cons_zero, Option.map_some', Option.some.injEq] at h0
    rw [determineCheater_cons_eq IDENT_STR guid a b t1 t2 h0]
    apply determineCheater_first_divergent IDENT_STR guid i t1 t2 r1 r2
    refine ⟨by simpa using h1, by simpa using h2, hne, fun j hj => ?_⟩
    have := hpre (j + 1) (Nat.succ_lt_succ hj)
    simpa using this

/-! ## Cheater determination: C2 – C4 -/

/-- C2: for every response sequence `ris` and every `guid`,
`determineCheater(guid, ris, ris)` ends with the line "No double spending detected"
(`noConflict`), never in the purchaser or the merchant branch. -/
theorem C2_same_ris_noConflict (IDENT_STR guid : Str) (ris : List Str) :
    determineCheater IDENT_STR guid ris ris = .ok .noConflict := by
  induction ris with
  | nil => rfl
  | cons r t ih => rw [determineCheater_cons_eq IDENT_STR guid r r t t rfl, ih]

/-- C3 (as amended): for two sequences of equal length with a first slot whose two entries
decode (`Buffer.from(·, 'hex')`) to different shares, if the byte-wise XOR of the two
decoded shares of that slot, read as a string, does not start with `IDENT_STR`, then
`determineCheater` ends in the merchant branch (`merchantCheated`). -/
theorem C3_no_marker_merchantCheated (IDENT_STR guid : Str) (ris1 ris2 : List Str)
    (i : Nat) (r1 r2 : Str)
    (hlen : ris1.length = ris2.length)
    (hdiv : FirstDivergentSlot ris1 ris2 i r1 r2)
    (hmark : IDENT_STR.isPrefixOf (utf8Decode (xorBytes (fromHex r1) (fromHex r2))) = false) :
    determineCheater IDENT_STR guid ris1 ris2 = .ok .merchantCheated := by
  rw [determineCheater_first_divergent IDENT_STR guid i ris1 ris2 r1 r2 hdiv, hmark]
  rfl

/-- Witness of C3 (as amended): the second slot diverges and its XOR is the single byte
`0x01`. -/
theorem C3_witness :
    determineCheater "IDENT".toList "g1".toList ["00".toList, "41".toList]
      ["00".toList, "40".toList] = .ok .merchantCheated :=
  C3_no_marker_merchantCheated "IDENT".toList "g1".toList ["00".toList, "41".toList]
    ["00".toList, "40".toList] 1 "41".toList "40".toList (by decide) (by decide) (by decide)

/-- C3 (counterexample to the claim as stated): the one-slot sequences `AB` and `ab` have
equal length and their slot 0 has `ris1[0] != ris2[0]`; the XOR of the two decoded shares
is the byte `0x00`, which does not read as a string starting with `IDENT`; yet both entries
decode to the byte `0xab` and `determineCheater` ends with `noConflict`, not in the
merchant branch. -/
theorem C3_counterexample :
    ["AB".toList].length = ["ab".toList].length ∧
    ["AB".toList][0]? = some "AB".toList ∧ ["ab".toList][0]? = some "ab".toList ∧
    "AB".toList ≠ "ab".toList ∧
    ("IDENT".toList).isPrefixOf
      (utf8Decode (xorBytes (fromHex "AB".toList) (fromHex "ab".toList))) = false ∧
    determineCheater "IDENT".toList "g1".toList ["AB".toList] ["ab".toList] =
      .ok .noConflict ∧
    determineCheater "IDENT".toList "g1".toList ["AB".toList] ["ab".toList] ≠
      .ok .merchantCheated := by
  decide

theorem utf8Encode_append (a b : Str) : utf8Encode (a ++ b) = utf8Encode a ++ utf8Encode b := by
  induction a with
  | nil => rfl
  | cons c cs ih =>
    rw [List.cons_append, utf8Encode, utf8Encode, ih, List.append_assoc]

theorem colon_byte_mem_payload (marker identity : Str) :
    byte 0x3A ∈ utf8Encode (marker ++ ':' :: identity) := by
  rw [utf8Encode_append]
  apply List.mem_append_right
  have h : utf8Encode (':' :: identity) = byte 0x3A :: utf8Encode identity := rfl
  rw [h]
  exact List.mem_cons_self _ _

theorem payload_shares_ne (marker identity : Str) (l r : Buffer)
    (hxor : xorBytes l r = utf8Encode (marker ++ ':' :: identity)) : l ≠ r := by
  intro h
  subst h
  have hm := colon_byte_mem_payload marker identity
  rw [← hxor, xorBytes_self] at hm
  have := List.eq_of_mem_replicate hm
  exact absurd this (by decide)

theorem split_payload (marker identity : Str) (hmarker : ':' ∉ marker)
    (hid : ':' ∉ identity) :
    (split ':' (marker ++ ':' :: identity))[1]? = some identity := by
  rw [split_append_sep ':' marker identity hmarker, split_no_sep ':' identity hid]
  rfl

theorem isPrefixOf_append_self (a b : Str) : a.isPrefixOf (a ++ b) = true := by
  induction a with
  | nil => simp
  | cons c cs ih => simp [List.isPrefixOf, ih]

/-- A divergent slot whose XOR is the tagged secret reveals the identity, when neither the
marker nor the identity contains the separator. -/
theorem determineCheater_cons_reveal (IDENT_STR guid identity : Str) (r1 r2 : Str)
    (t1 t2 : List Str) (hmarker : ':' ∉ IDENT_STR) (hid : ':' ∉ identity)
    (hne : fromHex r1 ≠ fromHex r2)
    (hxor : xorBytes (fromHex r1) (fromHex r2) = utf8Encode (IDENT_STR ++ ':' :: identity)) :
    determineCheater IDENT_STR guid (r1 :: t1) (r2 :: t2) =
      .ok (.identityRevealed (some identity)) := by
  rw [determineCheater_cons_ne IDENT_STR guid r1 r2 t1 t2 hne, hxor, utf8Decode_encode,
    isPrefixOf_append_self, split_payload IDENT_STR identity hmarker hid]
  rfl

/-- C4 (code evaluated at the failing input): a coin minted for the identity `a:b` has
shares whose XOR is the encoding of `IDENT:a:b`; after a double spend the first divergent
slot holds these two shares, and `determineCheater` reports the identity `a`, the part
between the first and the second `:`, not `a:b`. -/
theorem C4_identity_with_colon_is_cut :
    FirstDivergentSlot ["5a13c4079e216bf038".toList] ["13578149ca1b0aca5a".toList] 0
      "5a13c4079e216bf038".toList "13578149ca1b0aca5a".toList ∧
    xorBytes (fromHex "5a13c4079e216bf038".toList) (fromHex "13578149ca1b0aca5a".toList) =
      utf8Encode ("IDENT".toList ++ ':' :: "a:b".toList) ∧
    determineCheater "IDENT".toList "g1".toList ["5a13c4079e216bf038".toList]
      ["13578149ca1b0aca5a".toList] = .ok (.identityRevealed (some "a".toList)) := by
  decide

/-! ## End to end: C1 -/

/-- Two runs of the slot loop over the same slots: as soon as the draws differ in a slot,
the auditor reads the tagged secret off the two shares of the first such slot. -/
theorem determineCheater_reveals_on_slots (IDENT_STR identity : Str) (coin : Coin)
    (K : Nat) (bits1 bits2 : Nat → Bool)
    (hmarker : ':' ∉ IDENT_STR) (hid : ':' ∉ identity)
    (hxor : ∀ i, i < K → (coin.leftIdent i).length = (coin.rightIdent i).length ∧
      xorBytes (coin.leftIdent i) (coin.rightIdent i) =
        utf8Encode (IDENT_STR ++ ':' :: identity)) :
    ∀ slots : List Nat, (∀ i, i ∈ slots → i < K) → (∃ i, i ∈ slots ∧ bits1 i ≠ bits2 i) →
    determineCheater IDENT_STR coin.guid
        (slots.map fun i => toHex (selectedShare coin bits1 i))
        (slots.map fun i => toHex (selectedShare coin bits2 i)) =
      .ok (.identityRevealed (some identity))
  | [], _, h => by simp at h
  | i :: t, hK, hex => by
    obtain ⟨hlen, hx⟩ := hxor i (hK i (List.mem_cons_self i t))
    have hne := payload_shares_ne IDENT_STR identity _ _ hx
    simp only [List.map_cons]
    by_cases hb : bits1 i = bits2 i
    · rw [determineCheater_cons_eq _ _ _ _ _ _ (by simp only [selectedShare, hb])]
      apply determineCheater_reveals_on_slots IDENT_STR identity coin K bits1 bits2 hmarker
        hid hxor t (fun j hj => hK j (List.mem_cons_of_mem i hj))
      obtain ⟨j, hj, hjb⟩ := hex
      rcases List.mem_cons.mp hj with rfl | hj
      · exact absurd hb hjb
      · exact ⟨j, hj, hjb⟩
    · apply determineCheater_cons_reveal IDENT_STR coin.guid identity _ _ _ _ hmarker hid
      · rw [fromHex_toHex, fromHex_toHex]
        cases h1 : bits1 i <;> cases h2 : bits2 i <;>
          simp_all [selectedShare, Coin.getRis, Ne.symm hne]
      · rw [fromHex_toHex, fromHex_toHex]
        cases h1 : bits1 i <;> cases h2 : bits2 i <;>
          simp_all [selectedShare, Coin.getRis, xorBytes_comm _ _ hlen.symm]

/-- C1: for a coin honestly minted for an identity without `:` (valid signature, every
slot `i` committed with `leftHashes[i] = hash(left[i])`, `rightHashes[i] = hash(right[i])`,
and `left[i] XOR right[i]` equal to the bytes of `IDENT_STR + ':' + identity`, the two
shares having the same length), and for two sequences of draws that differ in some slot,
both `acceptCoin` runs return a response sequence and `determineCheater` on the two
sequences ends in the purchaser branch with exactly that identity. `IDENT_STR`, exported
by `coin.js`, is taken without `:`. -/
theorem C1_double_spend_reveals_identity (IDENT_STR BANK_STR : Str) (COIN_RIS_LENGTH : Nat)
    (hash : Buffer → Str) (verify : Nat → Str → Str → Str → Bool) (coin : Coin)
    (identity : Str) (leftHashes rightHashes : List Str) (bits1 bits2 : Nat → Bool)
    (hmarker : ':' ∉ IDENT_STR) (hid : ':' ∉ identity)
    (hsig : verify coin.signature coin.n coin.e coin.toString = true)
    (hparse : parseCoin BANK_STR coin.toString = .ok (leftHashes, rightHashes))
    (hl : ∀ i, i < COIN_RIS_LENGTH → leftHashes[i]? = some (hash (coin.leftIdent i)))
    (hr : ∀ i, i < COIN_RIS_LENGTH → rightHashes[i]? = some (hash (coin.rightIdent i)))
    (hxor : ∀ i, i < COIN_RIS_LENGTH →
      (coin.leftIdent i).length = (coin.rightIdent i).length ∧
      xorBytes (coin.leftIdent i) (coin.rightIdent i) =
        utf8Encode (IDENT_STR ++ ':' :: identity))
    (hdiff : ∃ i, i < COIN_RIS_LENGTH ∧ bits1 i ≠ bits2 i) :
    ∃ ris1 ris2,
      acceptCoin BANK_STR COIN_RIS_LENGTH hash verify coin bits1 = .ok (.ris ris1) ∧
      acceptCoin BANK_STR COIN_RIS_LENGTH hash verify coin bits2 = .ok (.ris ris2) ∧
      determineCheater IDENT_STR coin.guid ris1 ris2 =
        .ok (.identityRevealed (some identity)) := by
  refine ⟨_, _,
    acceptCoin_honest BANK_STR COIN_RIS_LENGTH hash verify coin bits1 leftHashes rightHashes
      hsig hparse hl hr,
    acceptCoin_honest BANK_STR COIN_RIS_LENGTH hash verify coin bits2 leftHashes rightHashes
      hsig hparse hl hr, ?_⟩
  apply determineCheater_reveals_on_slots IDENT_STR identity coin COIN_RIS_LENGTH bits1 bits2
    hmarker hid hxor (List.range COIN_RIS_LENGTH) (fun i hi => List.mem_range.mp hi)
  obtain ⟨i, hi, hb⟩ := hdiff
  exact ⟨i, List.mem_range.mpr hi, hb⟩

/-- Witness of C1 on `aliceCoin`: the two runs draw differently in slot 0. -/
theorem C1_witness :
    ∃ ris1 ris2,
      acceptCoin "BANK".toList 2 sampleHash acceptAll aliceCoin allLeft = .ok (.ris ris1) ∧
      acceptCoin "BANK".toList 2 sampleHash acceptAll aliceCoin rightThenLeft =
        .ok (.ris ris2) ∧
      determineCheater "IDENT".toList aliceCoin.guid ris1 ris2 =
        .ok (.identityRevealed (some "alice".toList)) :=
  C1_double_spend_reveals_identity "IDENT".toList "BANK".toList 2 sampleHash acceptAll
    aliceCoin "alice".toList
    ["5a13c4079e216bf0384499".toList, "5a13c4079e216bf0384499".toList]
    ["13578149ca1b0a9c5127fc".toList, "13578149ca1b0a9c5127fc".toList]
    allLeft rightThenLeft (by decide) (by decide) (by decide) (by decide) (by decide)
    (by decide) (by decide) ⟨0, by decide, by decide⟩

/-! ## One changed byte: C9 -/

theorem utf8DecodeAux_zero (lo hi : Nat) (bs : Buffer) :
    utf8DecodeAux 0 0 lo hi ((0 : Byte) :: bs) =
      Char.ofNat 0 :: utf8DecodeAux 0 0 0x80 0xBF bs := by
  rw [utf8DecodeAux_first]
  rfl

theorem utf8Decode_zeros_append (rest : Buffer) : ∀ n : Nat,
    utf8Decode (List.replicate n (0 : Byte) ++ rest) =
      List.replicate n (Char.ofNat 0) ++ utf8Decode rest
  | 0 => rfl
  | n + 1 => by
    have ih := utf8Decode_zeros_append rest n
    unfold utf8Decode at ih ⊢
    rw [List.replicate_succ, List.cons_append, utf8DecodeAux_zero, ih]
    rfl

theorem utf8Decode_zeros (n : Nat) :
    utf8Decode (List.replicate n (0 : Byte)) = List.replicate n (Char.ofNat 0) := by
  have h := utf8Decode_zeros_append [] n
  rw [List.append_nil] at h
  rw [h]
  simp [utf8Decode, utf8DecodeAux]

/-- A pending multi-byte sequence followed only by zero bytes is one U+FFFD. -/
theorem utf8DecodeAux_pending_zeros (cp need lo hi : Nat) (hneed : need ≠ 0) (hlo : 0 < lo) :
    ∀ m : Nat, utf8DecodeAux cp need lo hi (List.replicate m (0 : Byte)) =
      replacementChar :: List.replicate m (Char.ofNat 0)
  | 0 => by simp [utf8DecodeAux, hneed]
  | m + 1 => by
    have hz := utf8Decode_zeros m
    unfold utf8Decode at hz
    have h0 : ¬ (need ≠ 0 ∧ lo ≤ (0 : Byte).val ∧ (0 : Byte).val ≤ hi) := by
      intro h
      have : (0 : Byte).val = 0 := rfl
      omega
    rw [List.replicate_succ, utf8DecodeAux, if_neg h0, if_pos hneed,
      if_pos (by decide), hz]
    rfl

/-- One byte followed only by zero bytes decodes to one character followed by NULs. -/
theorem utf8Decode_byte_zeros (v : Byte) (m : Nat) :
    ∃ c, utf8Decode (v :: List.replicate m (0 : Byte)) =
      c :: List.replicate m (Char.ofNat 0) := by
  have hz := utf8Decode_zeros m
  unfold utf8Decode at hz ⊢
  rw [utf8DecodeAux_first]
  split_ifs
  · exact ⟨_, by rw [hz]⟩
  · exact ⟨_, utf8DecodeAux_pending_zeros _ _ _ _ (by decide) (by decide) m⟩
  · exact ⟨_, utf8DecodeAux_pending_zeros _ _ _ _ (by decide) (by decide) m⟩
  · exact ⟨_, utf8DecodeAux_pending_zeros _ _ _ _ (by decide) (by decide) m⟩
  · exact ⟨_, utf8DecodeAux_pending_zeros _ _ _ _ (by decide) (by decide) m⟩
  · exact ⟨_, utf8DecodeAux_pending_zeros _ _ _ _ (by decide) (by decide) m⟩
  · exact ⟨_, utf8DecodeAux_pending_zeros _ _ _ _ (by decide) (by decide) m⟩
  · exact ⟨_, utf8DecodeAux_pending_zeros _ _ _ _ (by decide) (by decide) m⟩
  · exact ⟨_, utf8DecodeAux_pending_zeros _ _ _ _ (by decide) (by decide) m⟩
  · exact ⟨_, utf8DecodeAux_pending_zeros _ _ _ _ (by decide) (by decide) m⟩
  · exact ⟨_, by rw [hz]⟩

theorem xorBytes_append (a : Buffer) : ∀ (s t : Buffer),
    xorBytes (a ++ s) (a ++ t) = List.replicate a.length (0 : Byte) ++ xorBytes s t := by
  induction a with
  | nil => intro s t; rfl
  | cons c cs ih =>
    intro s t
    rw [List.cons_append, List.cons_append, xorBytes, byte_xor_self, ih]
    rfl

theorem xorBytes_one_byte (a b : Buffer) (x y : Byte) :
    xorBytes (a ++ x :: b) (a ++ y :: b) =
      List.replicate a.length (0 : Byte) ++ (x ^^^ y) :: List.replicate b.length (0 : Byte) := by
  rw [xorBytes_append, xorBytes, xorBytes_self]

theorem countP_nonNul_le_one (n m : Nat) (c : Char) :
    (List.replicate n (Char.ofNat 0) ++ c :: List.replicate m (Char.ofNat 0)).countP
      (fun d => d != Char.ofNat 0) ≤ 1 := by
  rw [List.countP_append, List.countP_cons, List.countP_replicate, List.countP_replicate]
  simp only [bne_self_eq_false, Bool.false_eq_true, if_false, Nat.zero_add]
  split_ifs <;> omega

/-- The slot after a common beginning `pre` is the first divergent one when its two
entries decode differently. -/
theorem firstDivergentSlot_after (pre post1 post2 : List Str) (e1 e2 : Str)
    (hne : fromHex e1 ≠ fromHex e2) :
    FirstDivergentSlot (pre ++ e1 :: post1) (pre ++ e2 :: post2) pre.length e1 e2 := by
  refine ⟨?_, ?_, hne, fun j hj => ?_⟩
  · rw [List.getElem?_append_right (Nat.le_refl _), Nat.sub_self, List.getElem?_cons_zero]
  · rw [List.getElem?_append_right (Nat.le_refl _), Nat.sub_self, List.getElem?_cons_zero]
  · rw [List.getElem?_append_left hj, List.getElem?_append_left hj]

/-- C9 (as amended): when `ris2` is `ris1` with exactly one byte of the share of exactly
one slot changed, `determineCheater(guid, ris1, ris2)` ends in the merchant branch, given
that `IDENT_STR` has at least two characters other than U+0000 (such as `IDENT`). -/
theorem C9_one_byte_change_merchantCheated (IDENT_STR guid : Str) (pre post : List Str)
    (e1 e2 : Str) (a b : Buffer) (x y : Byte)
    (hmarker : 2 ≤ IDENT_STR.countP (fun d => d != Char.ofNat 0))
    (h1 : fromHex e1 = a ++ x :: b) (h2 : fromHex e2 = a ++ y :: b) (hxy : x ≠ y) :
    determineCheater IDENT_STR guid (pre ++ e1 :: post) (pre ++ e2 :: post) =
      .ok .merchantCheated := by
  have hne : fromHex e1 ≠ fromHex e2 := by
    rw [h1, h2]
    intro h
    have := List.append_cancel_left h
    simp only [List.cons.injEq, and_true] at this
    exact hxy this
  have hp : IDENT_STR.isPrefixOf (utf8Decode (xorBytes (fromHex e1) (fromHex e2))) = false := by
    rw [h1, h2, xorBytes_one_byte, utf8Decode_zeros_append]
    obtain ⟨c, hc⟩ := utf8Decode_byte_zeros (x ^^^ y) b.length
    rw [hc]
    by_contra hcon
    have hpre := List.isPrefixOf_iff_prefix.mp (Bool.eq_true_of_not_eq_false hcon)
    have hle := hpre.countP_le (fun d => d != Char.ofNat 0)
    have hone := countP_nonNul_le_one a.length b.length c
    omega
  rw [determineCheater_first_divergent IDENT_STR guid pre.length _ _ e1 e2
    (firstDivergentSlot_after pre post post e1 e2 hne), hp]
  rfl

/-- Witness of C9 (as amended): the byte `0x41` of the second slot becomes `0x40`. -/
theorem C9_witness :
    determineCheater "IDENT".toList "g1".toList (["00".toList] ++ "41ff".toList :: [])
      (["00".toList] ++ "40ff".toList :: []) = .ok .merchantCheated :=
  C9_one_byte_change_merchantCheated "IDENT".toList "g1".toList ["00".toList] []
    "41ff".toList "40ff".toList [] [byte 0xff] (byte 0x41) (byte 0x40)
    (by decide) (by decide) (by decide) (by decide)

/-- C9 (counterexample to the claim as stated): with the two-character marker `I` followed
by U+0000, changing the first byte of the only share from `0x00` to `0x49` makes the XOR
read as exactly the marker, and `determineCheater` ends in the purchaser branch (with an
undefined identity), not in the merchant branch. -/
theorem C9_counterexample :
    2 ≤ (['I', Char.ofNat 0] : Str).length ∧
    fromHex "0000".toList = [] ++ byte 0x00 :: [byte 0x00] ∧
    fromHex "4900".toList = [] ++ byte 0x49 :: [byte 0x00] ∧
    byte 0x00 ≠ byte 0x49 ∧
    determineCheater ['I', Char.ofNat 0] "g1".toList ([] ++ "0000".toList :: [])
      ([] ++ "4900".toList :: []) = .ok (.identityRevealed none) ∧
    determineCheater ['I', Char.ofNat 0] "g1".toList ([] ++ "0000".toList :: [])
      ([] ++ "4900".toList :: []) ≠ .ok .merchantCheated := by
  decide

/-! ## Counting divergent pairs of runs: C10 -/

theorem slotOf_acceptCoin_honest (BANK_STR : Str) (K : Nat) (hash : Buffer → Str)
    (verify : Nat → Str → Str → Str → Bool) (coin : Coin) (chooseLeft : Nat → Bool)
    (lh rh : List Str)
    (hsig : verify coin.signature coin.n coin.e coin.toString = true)
    (hparse : parseCoin BANK_STR coin.toString = .ok (lh, rh))
    (hl : ∀ i, i < K → lh[i]? = some (hash (coin.leftIdent i)))
    (hr : ∀ i, i < K → rh[i]? = some (hash (coin.rightIdent i)))
    (i : Nat) (hi : i < K) :
    slotOf (acceptCoin BANK_STR K hash verify coin chooseLeft) i =
      some (toHex (selectedShare coin chooseLeft i)) := by
  rw [acceptCoin_honest BANK_STR K hash verify coin chooseLeft lh rh hsig hparse hl hr]
  simp only [slotOf]
  rw [List.getElem?_map, List.getElem?_range hi]
  rfl

theorem selectedShare_eq_iff (coin : Coin) (b1 b2 : Nat → Bool) (i : Nat)
    (hne : coin.leftIdent i ≠ coin.rightIdent i) :
    selectedShare coin b1 i = selectedShare coin b2 i ↔ b1 i = b2 i := by
  cases h1 : b1 i <;> cases h2 : b2 i <;>
    simp [selectedShare, Coin.getRis, h1, h2, hne, Ne.symm hne]

theorem drawsOf_eq_iff {k : Nat} (f g : Fin k → Bool) :
    (∀ i, i < k → drawsOf f i = drawsOf g i) ↔ f = g := by
  constructor
  · intro h
    funext ⟨i, hi⟩
    have := h i hi
    simpa [drawsOf, hi] using this
  · rintro rfl i _
    rfl

theorem card_diagonal (α : Type) [Fintype α] [DecidableEq α] :
    (Finset.univ.filter (fun p : α × α => p.1 = p.2)).card = Fintype.card α := by
  rw [← Finset.card_univ]
  symm
  apply Finset.card_bij (fun a _ => (a, a))
  · intro a _
    simp
  · intro a _ b _ h
    exact (Prod.mk.inj h).1
  · rintro ⟨a, b⟩ hp
    simp only [Finset.mem_filter, Finset.mem_univ, true_and] at hp
    exact ⟨a, Finset.mem_univ a, by rw [← hp]⟩

/-- C10: for an honestly minted coin with `k = COIN_RIS_LENGTH` slots whose two shares
differ in every slot, among the `2^k * 2^k` ordered pairs of draw sequences exactly `2^k`
make the two `acceptCoin` results equal in every slot, and exactly `4^k - 2^k` make them
differ in at least one slot. -/
theorem C10_divergent_pairs_count (BANK_STR : Str) (COIN_RIS_LENGTH : Nat)
    (hash : Buffer → Str) (verify : Nat → Str → Str → Str → Bool) (coin : Coin)
    (leftHashes rightHashes : List Str)
    (hsig : verify coin.signature coin.n coin.e coin.toString = true)
    (hparse : parseCoin BANK_STR coin.toString = .ok (leftHashes, rightHashes))
    (hl : ∀ i, i < COIN_RIS_LENGTH → leftHashes[i]? = some (hash (coin.leftIdent i)))
    (hr : ∀ i, i < COIN_RIS_LENGTH → rightHashes[i]? = some (hash (coin.rightIdent i)))
    (hne : ∀ i, i < COIN_RIS_LENGTH → coin.leftIdent i ≠ coin.rightIdent i) :
    Fintype.card ((Fin COIN_RIS_LENGTH → Bool) × (Fin COIN_RIS_LENGTH → Bool)) =
      2 ^ COIN_RIS_LENGTH * 2 ^ COIN_RIS_LENGTH ∧
    (Finset.univ.filter
      (fun p : (Fin COIN_RIS_LENGTH → Bool) × (Fin COIN_RIS_LENGTH → Bool) =>
        ∀ i, i < COIN_RIS_LENGTH →
          slotOf (acceptCoin BANK_STR COIN_RIS_LENGTH hash verify coin (drawsOf p.1)) i =
          slotOf (acceptCoin BANK_STR COIN_RIS_LENGTH hash verify coin (drawsOf p.2)) i)).card =
      2 ^ COIN_RIS_LENGTH ∧
    (Finset.univ.filter
      (fun p : (Fin COIN_RIS_LENGTH → Bool) × (Fin COIN_RIS_LENGTH → Bool) =>
        ∃ i, i < COIN_RIS_LENGTH ∧
          slotOf (acceptCoin BANK_STR COIN_RIS_LENGTH hash verify coin (drawsOf p.1)) i ≠
          slotOf (acceptCoin BANK_STR COIN_RIS_LENGTH hash verify coin (drawsOf p.2)) i)).card =
      4 ^ COIN_RIS_LENGTH - 2 ^ COIN_RIS_LENGTH := by
  have hcard : Fintype.card ((Fin COIN_RIS_LENGTH → Bool) × (Fin COIN_RIS_LENGTH → Bool)) =
      2 ^ COIN_RIS_LENGTH * 2 ^ COIN_RIS_LENGTH := by
    simp
  have key : ∀ p : (Fin COIN_RIS_LENGTH → Bool) × (Fin COIN_RIS_LENGTH → Bool),
      (∀ i, i < COIN_RIS_LENGTH →
          slotOf (acceptCoin BANK_STR COIN_RIS_LENGTH hash verify coin (drawsOf p.1)) i =
          slotOf (acceptCoin BANK_STR COIN_RIS_LENGTH hash verify coin (drawsOf p.2)) i) ↔
        p.1 = p.2 := by
    intro p
    rw [← drawsOf_eq_iff]
    refine forall_congr' fun i => forall_congr' fun hi => ?_
    rw [slotOf_acceptCoin_honest BANK_STR COIN_RIS_LENGTH hash verify coin _ leftHashes
        rightHashes hsig hparse hl hr i hi,
      slotOf_acceptCoin_honest BANK_STR COIN_RIS_LENGTH hash verify coin _ leftHashes
        rightHashes hsig hparse hl hr i hi, Option.some.injEq]
    rw [← selectedShare_eq_iff coin _ _ i (hne i hi)]
    exact ⟨fun h => toHex_injective h, fun h => by rw [h]⟩
  have hsame : (Finset.univ.filter
      (fun p : (Fin COIN_RIS_LENGTH → Bool) × (Fin COIN_RIS_LENGTH → Bool) =>
        ∀ i, i < COIN_RIS_LENGTH →
          slotOf (acceptCoin BANK_STR COIN_RIS_LENGTH hash verify coin (drawsOf p.1)) i =
          slotOf (acceptCoin BANK_STR COIN_RIS_LENGTH hash verify coin (drawsOf p.2)) i)).card =
      2 ^ COIN_RIS_LENGTH := by
    rw [Finset.filter_congr (fun p _ => key p), card_diagonal]
    simp
  refine ⟨hcard, hsame, ?_⟩
  have hsplit := Finset.filter_card_add_filter_neg_card_eq_card
    (s := (Finset.univ : Finset ((Fin COIN_RIS_LENGTH → Bool) × (Fin COIN_RIS_LENGTH → Bool))))
    (fun p => ∀ i, i < COIN_RIS_LENGTH →
          slotOf (acceptCoin BANK_STR COIN_RIS_LENGTH hash verify coin (drawsOf p.1)) i =
          slotOf (acceptCoin BANK_STR COIN_RIS_LENGTH hash verify coin (drawsOf p.2)) i)
  rw [hsame, Finset.card_univ, hcard] at hsplit
  have hneg : (Finset.univ.filter
      (fun p : (Fin COIN_RIS_LENGTH → Bool) × (Fin COIN_RIS_LENGTH → Bool) =>
        ∃ i, i < COIN_RIS_LENGTH ∧
          slotOf (acceptCoin BANK_STR COIN_RIS_LENGTH hash verify coin (drawsOf p.1)) i ≠
          slotOf (acceptCoin BANK_STR COIN_RIS_LENGTH hash verify coin (drawsOf p.2)) i)) =
      (Finset.univ.filter
      (fun p : (Fin COIN_RIS_LENGTH → Bool) × (Fin COIN_RIS_LENGTH → Bool) =>
        ¬ ∀ i, i < COIN_RIS_LENGTH →
          slotOf (acceptCoin BANK_STR COIN_RIS_LENGTH hash verify coin (drawsOf p.1)) i =
          slotOf (acceptCoin BANK_STR COIN_RIS_LENGTH hash verify coin (drawsOf p.2)) i)) := by
    apply Finset.filter_congr
    intro p _
    push_neg
    rfl
  rw [hneg]
  have h4 : 4 ^ COIN_RIS_LENGTH = 2 ^ COIN_RIS_LENGTH * 2 ^ COIN_RIS_LENGTH := by
    rw [← Nat.mul_pow]
  omega

/-- Witness of C10 on `sampleCoin` with two slots: 4 of the 16 pairs of runs agree in
every slot and 12 diverge. -/
theorem C10_witness :
    Fintype.card ((Fin 2 → Bool) × (Fin 2 → Bool)) = 2 ^ 2 * 2 ^ 2 ∧
    (Finset.univ.filter
      (fun p : (Fin 2 → Bool) × (Fin 2 → Bool) =>
        ∀ i : Nat, i < 2 →
          slotOf (acceptCoin "BANK".toList 2 sampleHash acceptAll sampleCoin (drawsOf p.1)) i =
          slotOf (acceptCoin "BANK".toList 2 sampleHash acceptAll sampleCoin (drawsOf p.2)) i)).card =
      2 ^ 2 ∧
    (Finset.univ.filter
      (fun p : (Fin 2 → Bool) × (Fin 2 → Bool) =>
        ∃ i : Nat, i < 2 ∧
          slotOf (acceptCoin "BANK".toList 2 sampleHash acceptAll sampleCoin (drawsOf p.1)) i ≠
          slotOf (acceptCoin "BANK".toList 2 sampleHash acceptAll sampleCoin (drawsOf p.2)) i)).card =
      4 ^ 2 - 2 ^ 2 :=
  C10_divergent_pairs_count "BANK".toList 2 sampleHash acceptAll sampleCoin
    ["00".toList, "01".toList] ["ff".toList, "fe".toList]
    (by decide) (by decide) (by decide) (by decide) (by decide)

/-! ## Wire format: C11 and C14 -/

theorem not_mem_joinWith (sep c : Char) (hc : c ≠ sep) : ∀ l : List Str,
    (∀ h, h ∈ l → c ∉ h) → c ∉ joinWith sep l
  | [], _ => by simp [joinWith]
  | [h], hl => by
    simpa [joinWith] using hl h (List.mem_singleton_self h)
  | h :: h2 :: t, hl => by
    have ih := not_mem_joinWith sep c hc (h2 :: t)
      (fun x hx => hl x (List.mem_cons_of_mem h hx))
    have hh := hl h (List.mem_cons_self h _)
    simp only [joinWith, List.mem_append, List.mem_cons, not_or]
    exact ⟨hh, hc, ih⟩

theorem split_joinWith (sep : Char) : ∀ l : List Str, l ≠ [] →
    (∀ h, h ∈ l → sep ∉ h) → split sep (joinWith sep l) = l
  | [], hne, _ => absurd rfl hne
  | [h], _, hl => by
    simpa [joinWith] using split_no_sep sep h (hl h (List.mem_singleton_self h))
  | h :: h2 :: t, _, hl => by
    have ih := split_joinWith sep (h2 :: t) (List.cons_ne_nil h2 t)
      (fun x hx => hl x (List.mem_cons_of_mem h hx))
    have e : joinWith sep (h :: h2 :: t) = h ++ sep :: joinWith sep (h2 :: t) := rfl
    rw [e, split_append_sep sep h _ (hl h (List.mem_cons_self h _)), ih]

theorem split_canonicalString (BANK_STR amount guid : Str) (leftHashes rightHashes : List Str)
    (hbank : '-' ∉ BANK_STR) (hamount : '-' ∉ amount) (hguid : '-' ∉ guid)
    (hl : ∀ h, h ∈ leftHashes → '-' ∉ h) (hr : ∀ h, h ∈ rightHashes → '-' ∉ h) :
    split '-' (canonicalString BANK_STR amount guid leftHashes rightHashes) =
      [BANK_STR, amount, guid, joinWith ',' leftHashes, joinWith ',' rightHashes] := by
  unfold canonicalString
  rw [split_append_sep '-' BANK_STR _ hbank, split_append_sep '-' amount _ hamount,
    split_append_sep '-' guid _ hguid,
    split_append_sep '-' _ _ (not_mem_joinWith ',' '-' (by decide) leftHashes hl),
    split_no_sep '-' _ (not_mem_joinWith ',' '-' (by decide) rightHashes hr)]

/-- C11: for every amount, id and non-empty hash lists in which no field contains `-` and
no hash contains `,`, `parseCoin` applied to the canonical string
`BANK_STR-amount-guid-leftHashes-rightHashes` (hashes joined by `,`) returns exactly the
pair of the two hash lists, in order. -/
theorem C11_parseCoin_round_trip (BANK_STR amount guid : Str)
    (leftHashes rightHashes : List Str)
    (hleft : leftHashes ≠ []) (hright : rightHashes ≠ [])
    (hbank : '-' ∉ BANK_STR) (hamount : '-' ∉ amount) (hguid : '-' ∉ guid)
    (hl : ∀ h, h ∈ leftHashes → '-' ∉ h ∧ ',' ∉ h)
    (hr : ∀ h, h ∈ rightHashes → '-' ∉ h ∧ ',' ∉ h) :
    parseCoin BANK_STR (canonicalString BANK_STR amount guid leftHashes rightHashes) =
      .ok (leftHashes, rightHashes) := by
  unfold parseCoin
  rw [split_canonicalString BANK_STR amount guid leftHashes rightHashes hbank hamount hguid
    (fun h hh => (hl h hh).1) (fun h hh => (hr h hh).1)]
  simp only [List.getElem?_cons_zero, List.getElem?_cons_succ, ne_eq, not_true_eq_false,
    if_false]
  rw [split_joinWith ',' leftHashes hleft (fun h hh => (hl h hh).2),
    split_joinWith ',' rightHashes hright (fun h hh => (hr h hh).2)]

/-- Witness of C11: the canonical string `BANK-20-g1-00,01-ff,fe`. -/
theorem C11_witness :
    parseCoin "BANK".toList (canonicalString "BANK".toList "20".toList "g1".toList
      ["00".toList, "01".toList] ["ff".toList, "fe".toList]) =
      .ok (["00".toList, "01".toList], ["ff".toList, "fe".toList]) :=
  C11_parseCoin_round_trip "BANK".toList "20".toList "g1".toList
    ["00".toList, "01".toList] ["ff".toList, "fe".toList]
    (by decide) (by decide) (by decide) (by decide) (by decide) (by decide) (by decide)

/-- C14 (as amended): for a string whose marker field equals `BANK_STR`, with fewer than
five fields `parseCoin` fails and returns no hash lists, the failure being the `TypeError`
raised on the missing hash field and not the marker error; with more than five fields it
does not fail: it returns the hash lists read from the fourth and fifth fields and ignores
the further fields. -/
theorem C14_parseCoin_field_count (BANK_STR s : Str)
    (hmarker : (split '-' s)[0]? = some BANK_STR) :
    ((split '-' s).length < 5 → parseCoin BANK_STR s = .error .typeError) ∧
    (5 < (split '-' s).length →
      ∃ f3 f4, (split '-' s)[3]? = some f3 ∧ (split '-' s)[4]? = some f4 ∧
        parseCoin BANK_STR s = .ok (split ',' f3, split ',' f4)) := by
  constructor
  · intro hlen
    have h4 : (split '-' s)[4]? = none := List.getElem?_eq_none (by omega)
    unfold parseCoin
    simp only [hmarker, ne_eq, not_true_eq_false, if_false, h4]
    cases (split '-' s)[3]? <;> rfl
  · intro hlen
    have h3 : 3 < (split '-' s).length := by omega
    have h4 : 4 < (split '-' s).length := by omega
    refine ⟨(split '-' s)[3], (split '-' s)[4], List.getElem?_eq_getElem h3,
      List.getElem?_eq_getElem h4, ?_⟩
    unfold parseCoin
    simp only [hmarker, ne_eq, not_true_eq_false, if_false, List.getElem?_eq_getElem h3,
      List.getElem?_eq_getElem h4]

/-- Witness of C14 (as amended): a six-field string with the expected marker. -/
theorem C14_witness :
    ((split '-' "BANK-20-g1-00,01-ff,fe-zz".toList).length < 5 →
      parseCoin "BANK".toList "BANK-20-g1-00,01-ff,fe-zz".toList = .error .typeError) ∧
    (5 < (split '-' "BANK-20-g1-00,01-ff,fe-zz".toList).length →
      ∃ f3 f4, (split '-' "BANK-20-g1-00,01-ff,fe-zz".toList)[3]? = some f3 ∧
        (split '-' "BANK-20-g1-00,01-ff,fe-zz".toList)[4]? = some f4 ∧
        parseCoin "BANK".toList "BANK-20-g1-00,01-ff,fe-zz".toList =
          .ok (split ',' f3, split ',' f4)) :=
  C14_parseCoin_field_count "BANK".toList "BANK-20-g1-00,01-ff,fe-zz".toList (by decide)

/-- C14 (counterexample to the claim as stated): the six-field string
`BANK-20-g1-00,01-ff,fe-zz` has the expected marker and `parseCoin` returns hash lists for
it; the two-field string `BANK-20` has the expected marker and `parseCoin` fails on it with
a `TypeError`, not with the marker error. -/
theorem C14_counterexample :
    (split '-' "BANK-20-g1-00,01-ff,fe-zz".toList).length = 6 ∧
    (split '-' "BANK-20-g1-00,01-ff,fe-zz".toList)[0]? = some "BANK".toList ∧
    parseCoin "BANK".toList "BANK-20-g1-00,01-ff,fe-zz".toList =
      .ok (["00".toList, "01".toList], ["ff".toList, "fe".toList]) ∧
    (split '-' "BANK-20".toList).length = 2 ∧
    (split '-' "BANK-20".toList)[0]? = some "BANK".toList ∧
    parseCoin "BANK".toList "BANK-20".toList = .error .typeError ∧
    ∀ cnst, parseCoin "BANK".toList "BANK-20".toList ≠ .error (.malformedCoin cnst) := by
  refine ⟨by decide, by decide, by decide, by decide, by decide, by decide, ?_⟩
  intro cnst h
  have h2 : parseCoin "BANK".toList "BANK-20".toList = .error .typeError := by decide
  rw [h2] at h
  simp at h

/-! ## Divergence and verdict: C12 and C13 -/

theorem slotVerdict_ne_noConflict (IDENT_STR : Str) (s1 s2 : Buffer) :
    slotVerdict IDENT_STR s1 s2 ≠ .noConflict := by
  unfold slotVerdict
  simp only []
  split_ifs <;> simp

theorem determineCheater_first_divergent_slotVerdict (IDENT_STR guid : Str)
    (i : Nat) (ris1 ris2 : List Str) (r1 r2 : Str)
    (h : FirstDivergentSlot ris1 ris2 i r1 r2) :
    determineCheater IDENT_STR guid ris1 ris2 =
      .ok (slotVerdict IDENT_STR (fromHex r1) (fromHex r2)) := by
  rw [determineCheater_first_divergent IDENT_STR guid i ris1 ris2 r1 r2 h]
  unfold slotVerdict
  simp only []
  split_ifs <;> rfl

/-- A first divergent slot of the tails is one slot further in the whole sequences when
the heads decode alike. -/
theorem firstDivergentSlot_cons (a b : Str) (t1 t2 : List Str) (i : Nat) (r1 r2 : Str)
    (hab : fromHex a = fromHex b) (h : FirstDivergentSlot t1 t2 i r1 r2) :
    FirstDivergentSlot (a :: t1) (b :: t2) (i + 1) r1 r2 := by
  obtain ⟨h1, h2, hne, hpre⟩ := h
  refine ⟨by simpa using h1, by simpa using h2, hne, fun j hj => ?_⟩
  cases j with
  | zero => simp [hab]
  | succ j => simpa using hpre j (by omega)

/-- Two sequences of equal length either agree in every decoded slot, and the loop runs to
its end, or they have a first divergent slot, whose verdict is returned. -/
theorem determineCheater_cases (IDENT_STR guid : Str) : ∀ (ris1 ris2 : List Str),
    ris1.length = ris2.length →
    (determineCheater IDENT_STR guid ris1 ris2 = .ok .noConflict ∧
      ∀ (i : Nat) (r1 r2 : Str), ris1[i]? = some r1 → ris2[i]? = some r2 → fromHex r1 = fromHex r2) ∨
    ∃ i r1 r2, FirstDivergentSlot ris1 ris2 i r1 r2 ∧
      determineCheater IDENT_STR guid ris1 ris2 =
        .ok (slotVerdict IDENT_STR (fromHex r1) (fromHex r2))
  | [], [], _ => Or.inl ⟨rfl, fun i r1 r2 h => by simp at h⟩
  | [], _ :: _, h => by simp at h
  | _ :: _, [], h => by simp at h
  | a :: t1, b :: t2, h => by
    by_cases hab : fromHex a = fromHex b
    · rcases determineCheater_cases IDENT_STR guid t1 t2 (by simpa using h) with
        ⟨hd, hall⟩ | ⟨i, r1, r2, hdiv, hd⟩
      · left
        refine ⟨by rw [determineCheater_cons_eq IDENT_STR guid a b t1 t2 hab, hd], ?_⟩
        intro i r1 r2 h1 h2
        cases i with
        | zero =>
          simp only [List.getElem?_cons_zero, Option.some.injEq] at h1 h2
          rw [← h1, ← h2]
          exact hab
        | succ i => exact hall i r1 r2 (by simpa using h1) (by simpa using h2)
      · right
        exact ⟨i + 1, r1, r2, firstDivergentSlot_cons a b t1 t2 i r1 r2 hab hdiv,
          by rw [determineCheater_cons_eq IDENT_STR guid a b t1 t2 hab, hd]⟩
    · right
      have hdiv : FirstDivergentSlot (a :: t1) (b :: t2) 0 a b :=
        ⟨List.getElem?_cons_zero, List.getElem?_cons_zero, hab,
          fun j hj => absurd hj (Nat.not_lt_zero j)⟩
      exact ⟨0, a, b, hdiv,
        determineCheater_first_divergent_slotVerdict IDENT_STR guid 0 _ _ a b hdiv⟩

/-- C12 (as amended): for two sequences of equal length, `determineCheater` ends with
`noConflict` if and only if no slot holds two entries that decode
(`Buffer.from(·, 'hex')`) to different shares; and it ends in the purchaser or the
merchant branch exactly when some slot does. -/
theorem C12_noConflict_iff_no_decoded_divergence (IDENT_STR guid : Str)
    (ris1 ris2 : List Str) (hlen : ris1.length = ris2.length) :
    (determineCheater IDENT_STR guid ris1 ris2 = .ok .noConflict ↔
      ∀ (i : Nat) (r1 r2 : Str), ris1[i]? = some r1 → ris2[i]? = some r2 → fromHex r1 = fromHex r2) ∧
    (((∃ purchaser, determineCheater IDENT_STR guid ris1 ris2 =
          .ok (.identityRevealed purchaser)) ∨
        determineCheater IDENT_STR guid ris1 ris2 = .ok .merchantCheated) ↔
      ∃ (i : Nat) (r1 r2 : Str), ris1[i]? = some r1 ∧ ris2[i]? = some r2 ∧ fromHex r1 ≠ fromHex r2) := by
  rcases determineCheater_cases IDENT_STR guid ris1 ris2 hlen with
    ⟨hd, hall⟩ | ⟨i, r1, r2, hdiv, hd⟩
  · refine ⟨⟨fun _ => hall, fun _ => hd⟩, ⟨?_, ?_⟩⟩
    · rintro (⟨p, hp⟩ | hm)
      · rw [hd] at hp; simp at hp
      · rw [hd] at hm; simp at hm
    · rintro ⟨j, a, b, h1, h2, hne⟩
      exact absurd (hall j a b h1 h2) hne
  · have hnc := slotVerdict_ne_noConflict IDENT_STR (fromHex r1) (fromHex r2)
    refine ⟨⟨?_, ?_⟩, ⟨fun _ => ⟨i, r1, r2, hdiv.1, hdiv.2.1, hdiv.2.2.1⟩, fun _ => ?_⟩⟩
    · intro h
      rw [hd] at h
      simp only [Except.ok.injEq] at h
      exact absurd h hnc
    · intro hall
      exact absurd (hall i r1 r2 hdiv.1 hdiv.2.1) hdiv.2.2.1
    · rw [hd]
      cases hv : slotVerdict IDENT_STR (fromHex r1) (fromHex r2) with
      | identityRevealed p => exact Or.inl ⟨p, rfl⟩
      | merchantCheated => exact Or.inr rfl
      | noConflict => exact absurd hv hnc

/-- Witness of C12 (as amended): the entries `AB` and `ab` decode alike, the entries `41`
and `40` do not. -/
theorem C12_witness :
    (determineCheater "IDENT".toList "g1".toList ["AB".toList, "41".toList]
        ["ab".toList, "40".toList] = .ok .noConflict ↔
      ∀ (i : Nat) (r1 r2 : Str), ["AB".toList, "41".toList][i]? = some r1 →
        ["ab".toList, "40".toList][i]? = some r2 → fromHex r1 = fromHex r2) ∧
    (((∃ purchaser, determineCheater "IDENT".toList "g1".toList ["AB".toList, "41".toList]
          ["ab".toList, "40".toList] = .ok (.identityRevealed purchaser)) ∨
        determineCheater "IDENT".toList "g1".toList ["AB".toList, "41".toList]
          ["ab".toList, "40".toList] = .ok .merchantCheated) ↔
      ∃ (i : Nat) (r1 r2 : Str), ["AB".toList, "41".toList][i]? = some r1 ∧
        ["ab".toList, "40".toList][i]? = some r2 ∧ fromHex r1 ≠ fromHex r2) :=
  C12_noConflict_iff_no_decoded_divergence "IDENT".toList "g1".toList
    ["AB".toList, "41".toList] ["ab".toList, "40".toList] (by decide)

/-- C12 (counterexample to the claim as stated): the one-slot sequences `AB` and `ab` have
equal length and a slot with `ris1[i] != ris2[i]`, yet both entries decode to the byte
`0xab` and `determineCheater` ends with `noConflict`. -/
theorem C12_counterexample :
    ["AB".toList].length = ["ab".toList].length ∧
    (∃ (i : Nat) (r1 r2 : Str), ["AB".toList][i]? = some r1 ∧ ["ab".toList][i]? = some r2 ∧ r1 ≠ r2) ∧
    determineCheater "IDENT".toList "g1".toList ["AB".toList] ["ab".toList] =
      .ok .noConflict :=
  ⟨by decide, ⟨0, "AB".toList, "ab".toList, by decide, by decide, by decide⟩, by decide⟩

theorem getElem?_of_take_eq {l new : List Str} {n j : Nat} (h : new.take n = l.take n)
    (hj : j < n) : new[j]? = l[j]? := by
  rw [← List.getElem?_take_of_lt hj, h, List.getElem?_take_of_lt hj]

/-- A first divergent slot stays the first divergent slot when the entries after it are
replaced. -/
theorem firstDivergentSlot_of_take_eq (ris1 ris2 new1 new2 : List Str) (i : Nat)
    (r1 r2 : Str) (hdiv : FirstDivergentSlot ris1 ris2 i r1 r2)
    (h1 : new1.take (i + 1) = ris1.take (i + 1))
    (h2 : new2.take (i + 1) = ris2.take (i + 1)) :
    FirstDivergentSlot new1 new2 i r1 r2 := by
  obtain ⟨e1, e2, hne, hpre⟩ := hdiv
  refine ⟨?_, ?_, hne, fun j hj => ?_⟩
  · rw [getElem?_of_take_eq h1 (Nat.lt_succ_self i), e1]
  · rw [getElem?_of_take_eq h2 (Nat.lt_succ_self i), e2]
  · rw [getElem?_of_take_eq h1 (Nat.lt_succ_of_lt hj),
      getElem?_of_take_eq h2 (Nat.lt_succ_of_lt hj)]
    exact hpre j hj

/-- C13 (as amended): when slot `i` is the first slot of two sequences whose two entries
decode (`Buffer.from(·, 'hex')`) to different shares, the verdict of `determineCheater` is
the verdict of the two shares of slot `i` alone, and it stays the same when the entries
after slot `i` are replaced by any others, in either sequence. -/
theorem C13_first_divergence_wins (IDENT_STR guid : Str) (ris1 ris2 new1 new2 : List Str)
    (i : Nat) (r1 r2 : Str)
    (hdiv : FirstDivergentSlot ris1 ris2 i r1 r2)
    (h1 : new1.take (i + 1) = ris1.take (i + 1))
    (h2 : new2.take (i + 1) = ris2.take (i + 1)) :
    determineCheater IDENT_STR guid ris1 ris2 =
      .ok (slotVerdict IDENT_STR (fromHex r1) (fromHex r2)) ∧
    determineCheater IDENT_STR guid new1 new2 = determineCheater IDENT_STR guid ris1 ris2 := by
  have hnew := firstDivergentSlot_of_take_eq ris1 ris2 new1 new2 i r1 r2 hdiv h1 h2
  rw [determineCheater_first_divergent_slotVerdict IDENT_STR guid i ris1 ris2 r1 r2 hdiv,
    determineCheater_first_divergent_slotVerdict IDENT_STR guid i new1 new2 r1 r2 hnew]
  exact ⟨rfl, rfl⟩

/-- Witness of C13 (as amended): slot 0 diverges with the merchant verdict; the second slot of the
replaced sequences holds the two shares of `aliceCoin`, which alone give the purchaser
verdict. -/
theorem C13_witness :
    determineCheater "IDENT".toList "g1".toList ["41".toList, "00".toList]
        ["40".toList, "00".toList] =
      .ok (slotVerdict "IDENT".toList (fromHex "41".toList) (fromHex "40".toList)) ∧
    determineCheater "IDENT".toList "g1".toList
        ["41".toList, "5a13c4079e216bf0384499".toList]
        ["40".toList, "13578149ca1b0a9c5127fc".toList] =
      determineCheater "IDENT".toList "g1".toList ["41".toList, "00".toList]
        ["40".toList, "00".toList] :=
  C13_first_divergence_wins "IDENT".toList "g1".toList ["41".toList, "00".toList]
    ["40".toList, "00".toList] ["41".toList, "5a13c4079e216bf0384499".toList]
    ["40".toList, "13578149ca1b0a9c5127fc".toList] 0 "41".toList "40".toList
    (by decide) (by decide) (by decide)

/-- C13 (counterexample to the claim as stated): in the sequences `AB`, `41` and `ab`, `40`
the first slot with `ris1[i] != ris2[i]` is slot 0, and `determineCheater` ends in the
merchant branch; with the entries of slot 1, after that slot, replaced by `00` in both
sequences it ends with `noConflict`: the entries of slot 0 decode to the same byte, so the
verdict comes from slot 1. -/
theorem C13_counterexample :
    ["AB".toList, "41".toList][0]? = some "AB".toList ∧
    ["ab".toList, "40".toList][0]? = some "ab".toList ∧
    "AB".toList ≠ "ab".toList ∧
    (["AB".toList, "00".toList]).take 1 = (["AB".toList, "41".toList]).take 1 ∧
    (["ab".toList, "00".toList]).take 1 = (["ab".toList, "40".toList]).take 1 ∧
    determineCheater "IDENT".toList "g1".toList ["AB".toList, "41".toList]
      ["ab".toList, "40".toList] = .ok .merchantCheated ∧
    determineCheater "IDENT".toList "g1".toList ["AB".toList, "00".toList]
      ["ab".toList, "00".toList] = .ok .noConflict := by
  decide

/-! ## Symmetry, length and coin id: C16 – C18 -/

theorem slotVerdict_comm (IDENT_STR : Str) (s1 s2 : Buffer) (h : s1.length = s2.length) :
    slotVerdict IDENT_STR s1 s2 = slotVerdict IDENT_STR s2 s1 := by
  unfold slotVerdict
  rw [xorBytes_comm s1 s2 h]

theorem determineCheater_cons_ne_slotVerdict (IDENT_STR guid : Str) (r1 r2 : Str)
    (t1 t2 : List Str) (h : fromHex r1 ≠ fromHex r2) :
    determineCheater IDENT_STR guid (r1 :: t1) (r2 :: t2) =
      .ok (slotVerdict IDENT_STR (fromHex r1) (fromHex r2)) :=
  determineCheater_first_divergent_slotVerdict IDENT_STR guid 0 _ _ r1 r2
    ⟨List.getElem?_cons_zero, List.getElem?_cons_zero, h,
      fun j hj => absurd hj (Nat.not_lt_zero j)⟩

/-- Swapping the two sequences swaps the two shares inside the first divergent slot only,
and the XOR of two shares of equal length does not depend on their order. -/
theorem determineCheater_swap (IDENT_STR guid : Str) : ∀ (ris1 ris2 : List Str),
    ris1.length = ris2.length →
    (∀ (i : Nat) (r1 r2 : Str), ris1[i]? = some r1 → ris2[i]? = some r2 →
      (fromHex r1).length = (fromHex r2).length) →
    determineCheater IDENT_STR guid ris1 ris2 = determineCheater IDENT_STR guid ris2 ris1
  | [], [], _, _ => rfl
  | [], _ :: _, h, _ => by simp at h
  | _ :: _, [], h, _ => by simp at h
  | a :: t1, b :: t2, h, hshare => by
    by_cases hab : fromHex a = fromHex b
    · rw [determineCheater_cons_eq IDENT_STR guid a b t1 t2 hab,
        determineCheater_cons_eq IDENT_STR guid b a t2 t1 hab.symm]
      exact determineCheater_swap IDENT_STR guid t1 t2 (by simpa using h)
        (fun i r1 r2 h1 h2 => hshare (i + 1) r1 r2 (by simpa using h1) (by simpa using h2))
    · rw [determineCheater_cons_ne_slotVerdict IDENT_STR guid a b t1 t2 hab,
        determineCheater_cons_ne_slotVerdict IDENT_STR guid b a t2 t1 (Ne.symm hab),
        slotVerdict_comm IDENT_STR _ _
          (hshare 0 a b List.getElem?_cons_zero List.getElem?_cons_zero)]

/-- C16: for two sequences of equal length whose shares have equal byte length in every
slot, `determineCheater(guid, ris1, ris2)` and `determineCheater(guid, ris2, ris1)` give
the same verdict, with the same reported identity. -/
theorem C16_verdict_symmetric (IDENT_STR guid : Str) (ris1 ris2 : List Str)
    (hlen : ris1.length = ris2.length)
    (hshare : ∀ (i : Nat) (r1 r2 : Str), ris1[i]? = some r1 → ris2[i]? = some r2 →
      (fromHex r1).length = (fromHex r2).length) :
    determineCheater IDENT_STR guid ris1 ris2 = determineCheater IDENT_STR guid ris2 ris1 :=
  determineCheater_swap IDENT_STR guid ris1 ris2 hlen hshare

/-- Witness of C16 on the two shares of `aliceCoin`, in both orders. -/
theorem C16_witness :
    determineCheater "IDENT".toList "g2".toList ["5a13c4079e216bf0384499".toList]
        ["13578149ca1b0a9c5127fc".toList] =
      determineCheater "IDENT".toList "g2".toList ["13578149ca1b0a9c5127fc".toList]
        ["5a13c4079e216bf0384499".toList] :=
  C16_verdict_symmetric "IDENT".toList "g2".toList ["5a13c4079e216bf0384499".toList]
    ["13578149ca1b0a9c5127fc".toList] (by decide)
    (fun i r1 r2 h1 h2 => by
      cases i with
      | zero =>
        simp only [List.getElem?_cons_zero, Option.some.injEq] at h1 h2
        subst h1 h2
        decide
      | succ i => simp at h1)

/-- C17: only the first `ris1.length` slots are compared. When `ris2` is `ris1` followed by
further slots, `determineCheater(guid, ris1, ris2)` ends with `noConflict`; when `ris1` is
`ris2` followed by further slots, `determineCheater(guid, ris1, ris2)` gives no verdict: it
throws on the first slot missing from `ris2`. -/
theorem C17_only_first_slots_compared (IDENT_STR guid : Str) (ris extra : List Str)
    (hextra : extra ≠ []) :
    determineCheater IDENT_STR guid ris (ris ++ extra) = .ok .noConflict ∧
    determineCheater IDENT_STR guid (ris ++ extra) ris = .error .typeError := by
  induction ris with
  | nil =>
    refine ⟨rfl, ?_⟩
    cases extra with
    | nil => exact absurd rfl hextra
    | cons a t => rfl
  | cons r t ih =>
    rw [List.cons_append, determineCheater_cons_eq IDENT_STR guid r r _ _ rfl,
      determineCheater_cons_eq IDENT_STR guid r r _ _ rfl]
    exact ih

/-- Witness of C17: one common slot and one further slot. -/
theorem C17_witness :
    determineCheater "IDENT".toList "g1".toList ["41".toList]
        (["41".toList] ++ ["40".toList]) = .ok .noConflict ∧
    determineCheater "IDENT".toList "g1".toList (["41".toList] ++ ["40".toList])
        ["41".toList] = .error .typeError :=
  C17_only_first_slots_compared "IDENT".toList "g1".toList ["41".toList] ["40".toList]
    (by decide)

/-- C18: the verdict does not depend on the coin id: for every two ids,
`determineCheater` gives the same verdict on the same sequences; the id only appears in
the first printed line, and every later line is the same. -/
theorem C18_verdict_independent_of_guid (IDENT_STR guid1 guid2 : Str)
    (ris1 ris2 : List Str) :
    determineCheater IDENT_STR guid1 ris1 ris2 = determineCheater IDENT_STR guid2 ris1 ris2 ∧
    (consoleLines IDENT_STR guid1 ris1 ris2).tail =
      (consoleLines IDENT_STR guid2 ris1 ris2).tail := by
  have h : ∀ r1 r2 : List Str,
      determineCheater IDENT_STR guid1 r1 r2 = determineCheater IDENT_STR guid2 r1 r2 := by
    intro r1
    induction r1 with
    | nil => intro r2; rfl
    | cons a t ih =>
      intro r2
      cases r2 with
      | nil => rfl
      | cons b t2 =>
        by_cases hab : fromHex a = fromHex b
        · rw [determineCheater_cons_eq IDENT_STR guid1 a b t t2 hab,
            determineCheater_cons_eq IDENT_STR guid2 a b t t2 hab]
          exact ih t2
        · rw [determineCheater_cons_ne IDENT_STR guid1 a b t t2 hab,
            determineCheater_cons_ne IDENT_STR guid2 a b t t2 hab]
  refine ⟨h ris1 ris2, ?_⟩
  simp only [consoleLines, List.tail_cons, h ris1 ris2]

/-! ## Soundness of the reported identity: C15 -/

/-- C15 (code evaluated at failing inputs): with the marker `IDENT`, two one-slot
sequences whose shares XOR to the five bytes of `IDENT`, with no `:` and no identity, end
in the purchaser branch with an `undefined` identity (the line printed is
"Purchaser is the cheater! Identity: undefined"); and two whose shares XOR to
`IDENTITY:bob` end in the purchaser branch with the identity `bob`, although the payload
is not `IDENT:bob`. -/
theorem C15_unsound_identity_verdicts :
    (FirstDivergentSlot ["5a13c4079e".toList] ["13578149ca".toList] 0
        "5a13c4079e".toList "13578149ca".toList ∧
      utf8Decode (xorBytes (fromHex "5a13c4079e".toList) (fromHex "13578149ca".toList)) =
        "IDENT".toList ∧
      determineCheater "IDENT".toList "g1".toList ["5a13c4079e".toList]
        ["13578149ca".toList] = .ok (.identityRevealed none) ∧
      consoleLines "IDENT".toList "g1".toList ["5a13c4079e".toList] ["13578149ca".toList] =
        ["Checking double-spend for coin g1...".toList,
         "Purchaser is the cheater! Identity: undefined".toList]) ∧
    (FirstDivergentSlot ["5a13c4079e216bf038449921".toList]
        ["13578149ca683fa90226f643".toList] 0
        "5a13c4079e216bf038449921".toList "13578149ca683fa90226f643".toList ∧
      utf8Decode (xorBytes (fromHex "5a13c4079e216bf038449921".toList)
        (fromHex "13578149ca683fa90226f643".toList)) = "IDENTITY:bob".toList ∧
      determineCheater "IDENT".toList "g1".toList ["5a13c4079e216bf038449921".toList]
        ["13578149ca683fa90226f643".toList] = .ok (.identityRevealed (some "bob".toList)) ∧
      "IDENTITY:bob".toList ≠ "IDENT".toList ++ ':' :: "bob".toList) := by
  decide

/-! ## Hex decoding of entries that are not plain hex -/

/-- Characters from U+0100 on count by the low byte of their code units: U+0141 U+0141
decodes like `AA`, and `4` U+0131 like `41`; an upper-case digit decodes like the
lower-case one, and an odd last digit is dropped. -/
theorem fromHex_low_byte_samples :
    fromHex [Char.ofNat 0x141, Char.ofNat 0x141] = [byte 0xaa] ∧
    fromHex ['4', Char.ofNat 0x131] = [byte 0x41] ∧
    fromHex "AB".toList = fromHex "ab".toList ∧
    fromHex "abc".toList = [byte 0xab] ∧
    fromHex "zz".toList = [] := by
  decide

end Driver
